import Mathlib

/-!
# Verification of the prisoners-arena match-logic core

A shallow embedding, in Lean 4, of the deterministic Iterated Prisoner's
Dilemma core of the `prisoners-arena` repository:

* `crates/match-logic/src/random.rs`   — the seeded xorshift64* PRNG,
* `crates/match-logic/src/strategy.rs` — the nine built-in strategies,
* `crates/match-logic/src/vm.rs`       — the stack-based bytecode VM,
* `crates/match-logic/src/game.rs`     — the match orchestrator,
* `crates/match-logic/src/pairing.rs`  — the Feistel-based pairing generator.

Machine integers (`u8`, `u32`, `u64`, `usize`) are modelled as `Nat`,
with an explicit `% 2^w` wherever the source arithmetic can wrap
(the on-chain build is a release build, so overflow wraps).
Rust panics (array indexing out of bounds, `Option::unwrap`, division by
zero) and non-terminating loops are modelled by an `Option`-valued result
where `none` means "no value is produced".  Bounded `while` loops are
modelled by structural recursion on an explicit counter that dominates
the loop's own variant, so that every definition stays executable.
-/

set_option maxRecDepth 40000

namespace PrisonersArena

/-- 2^64, the modulus of `u64` arithmetic. -/
def u64Mod : Nat := 18446744073709551616

/-- 2^32, the modulus of `u32` arithmetic. -/
def u32Mod : Nat := 4294967296

/-! ## `random.rs` — SeededRng -/

/-- `SeededRng`: a 64-bit xorshift64* state (`random.rs`). -/
structure SeededRng where
  state : Nat
  deriving Repr, DecidableEq

/-- The three shift-xor steps of xorshift64* that update `self.state`
in `next_u64` (`random.rs` lines 48-54).  `state << 25` wraps at 2^64. -/
def xorshiftStep (s : Nat) : Nat :=
  let s1 := s ^^^ (s >>> 12)
  let s2 := s1 ^^^ ((s1 <<< 25) % u64Mod)
  s2 ^^^ (s2 >>> 27)

/-- `next_u64`: advance the state and return `state * 0x2545f4914f6cdd1d`
(wrapping).  The multiplied value is returned but not stored. -/
def SeededRng.nextU64 (r : SeededRng) : Nat × SeededRng :=
  let s := xorshiftStep r.state
  ((s * 2685821657736338717) % u64Mod, ⟨s⟩)

/-- `next_u32`: the high 32 bits of `next_u64`. -/
def SeededRng.nextU32 (r : SeededRng) : Nat × SeededRng :=
  let (v, r') := r.nextU64
  (v >>> 32, r')

/-- `next_percent`: `next_u32() % 100`. -/
def SeededRng.nextPercent (r : SeededRng) : Nat × SeededRng :=
  let (v, r') := r.nextU32
  (v % 100, r')

/-- `next_range(max)`: `next_u32() % max`, returning 0 (without consuming
the generator) when `max = 0`. -/
def SeededRng.nextRange (r : SeededRng) (max : Nat) : Nat × SeededRng :=
  if max = 0 then (0, r)
  else
    let (v, r') := r.nextU32
    (v % max, r')

/-- Discard `n` outputs of the generator (the warm-up loop in `new`). -/
def SeededRng.warm : Nat → SeededRng → SeededRng
  | 0, r => r
  | n + 1, r => SeededRng.warm n r.nextU64.2

/-- A little-endian unsigned integer from a list of bytes. -/
def leBytes (l : List Nat) : Nat :=
  l.foldr (fun b acc => b + 256 * acc) 0

/-- The seed-folding loop of `SeededRng::new`: XOR together the 8-byte
little-endian chunks of the seed, each chunk wrapping-added its index.
A 32-byte seed has exactly 4 chunks, so recursion depth 4 suffices. -/
def seedFold : Nat → List Nat → Nat → Nat
  | 0, _, _ => 0
  | fuel + 1, l, i =>
    match l with
    | [] => 0
    | _ :: _ => ((leBytes (l.take 8) + i) % u64Mod) ^^^ seedFold fuel (l.drop 8) (i + 1)

/-- `SeededRng::new(seed, match_index)`: fold the seed, XOR in
`match_index * 0x517cc1b727220a95`, then discard 8 warm-up outputs. -/
def SeededRng.new (seed : List Nat) (matchIndex : Nat) : SeededRng :=
  let st := seedFold 4 seed 0
  let st2 := st ^^^ ((matchIndex * 5871781006564002453) % u64Mod)
  SeededRng.warm 8 ⟨st2⟩

/-- `for_round(round)`: XOR in `round * 0x9e3779b97f4a7c15` and discard
one output. -/
def SeededRng.forRound (r : SeededRng) (round : Nat) : SeededRng :=
  let st := r.state ^^^ ((round * 11400714819323198485) % u64Mod)
  (SeededRng.mk st).nextU64.2

/-! ## `strategy.rs` — moves and built-in strategies -/

/-- A move in the Prisoner's Dilemma. -/
inductive Move where
  | Cooperate
  | Defect
  deriving Repr, DecidableEq

/-- The payoff matrix (`lib.rs`): returns `(score_a, score_b)`. -/
def payoff : Move → Move → Nat × Nat
  | Move.Cooperate, Move.Cooperate => (3, 3)
  | Move.Cooperate, Move.Defect => (0, 5)
  | Move.Defect, Move.Cooperate => (5, 0)
  | Move.Defect, Move.Defect => (1, 1)

/-- The nine built-in strategy tags. -/
inductive StrategyBase where
  | TitForTat
  | AlwaysDefect
  | AlwaysCooperate
  | GrimTrigger
  | Pavlov
  | SuspiciousTitForTat
  | Random
  | TitForTwoTats
  | Gradual
  deriving Repr, DecidableEq

/-- `StrategyParams` (`strategy.rs`): five `u8` tuning fields. -/
structure StrategyParams where
  forgiveness : Nat
  retaliationDelay : Nat
  noiseTolerance : Nat
  initialMoves : Nat
  cooperateBias : Nat
  deriving Repr, DecidableEq

/-- `StrategyParams::default()`. -/
def StrategyParams.default : StrategyParams :=
  ⟨0, 0, 0, 0, 50⟩

/-- A complete strategy: base tag plus parameters. -/
structure Strategy where
  base : StrategyBase
  params : StrategyParams
  deriving Repr, DecidableEq

/-- `Strategy::new(base)`: default parameters. -/
def Strategy.new (base : StrategyBase) : Strategy :=
  ⟨base, StrategyParams.default⟩

/-- `Iterator::rposition`: index of the last element satisfying `p`. -/
def rposition (p : Move → Bool) (l : List Move) : Option Nat :=
  match l.reverse.findIdx? p with
  | some i => some (l.length - 1 - i)
  | none => none

/-- `execute_tit_for_tat` (`strategy.rs` lines 142-169). -/
def executeTitForTat (opp : List Move) (params : StrategyParams)
    (rng : SeededRng) : Move × SeededRng :=
  match opp.getLast? with
  | none => (Move.Cooperate, rng)
  | some Move.Cooperate => (Move.Cooperate, rng)
  | some Move.Defect =>
    let afterDelay : Unit → Move × SeededRng := fun _ =>
      if params.forgiveness > 0 then
        let (p, rng') := rng.nextPercent
        if p < params.forgiveness then (Move.Cooperate, rng') else (Move.Defect, rng')
      else (Move.Defect, rng)
    if params.retaliationDelay > 0 then
      match rposition (· == Move.Defect) opp with
      | some pos =>
        if opp.length - 1 - pos < params.retaliationDelay then (Move.Cooperate, rng)
        else afterDelay ()
      | none => afterDelay ()
    else afterDelay ()

/-- `execute_grim_trigger`: defect once the opponent's defection count
exceeds the noise tolerance. -/
def executeGrimTrigger (opp : List Move) (params : StrategyParams) : Move :=
  if opp.countP (· == Move.Defect) > params.noiseTolerance then Move.Defect
  else Move.Cooperate

/-- `execute_pavlov` (`strategy.rs` lines 193-217).  The source unwraps
`opponent_history.last()` after checking only `my_history`; `none`
models the panic when the opponent history is empty. -/
def executePavlov (opp my : List Move) : Option Move :=
  match my.getLast? with
  | none => some Move.Cooperate
  | some myLast =>
    match opp.getLast? with
    | none => none
    | some oppLast =>
      let s := (payoff myLast oppLast).1
      if s ≥ 3 then some myLast
      else some (match myLast with
        | Move.Cooperate => Move.Defect
        | Move.Defect => Move.Cooperate)

/-- `execute_suspicious_tit_for_tat`: TFT that starts with Defect. -/
def executeSuspiciousTitForTat (opp : List Move) (params : StrategyParams)
    (rng : SeededRng) : Move × SeededRng :=
  match opp.getLast? with
  | none => (Move.Defect, rng)
  | some Move.Cooperate => (Move.Cooperate, rng)
  | some Move.Defect =>
    let afterDelay : Unit → Move × SeededRng := fun _ =>
      if params.forgiveness > 0 then
        let (p, rng') := rng.nextPercent
        if p < params.forgiveness then (Move.Cooperate, rng') else (Move.Defect, rng')
      else (Move.Defect, rng)
    if params.retaliationDelay > 0 then
      match rposition (· == Move.Defect) opp with
      | some pos =>
        if opp.length - 1 - pos < params.retaliationDelay then (Move.Cooperate, rng)
        else afterDelay ()
      | none => afterDelay ()
    else afterDelay ()

/-- `execute_random`: cooperate with probability `cooperate_bias`%. -/
def executeRandom (params : StrategyParams) (rng : SeededRng) : Move × SeededRng :=
  let (p, rng') := rng.nextPercent
  if p < params.cooperateBias then (Move.Cooperate, rng') else (Move.Defect, rng')

/-- `execute_tit_for_two_tats`: defect only after two consecutive
opponent defections. -/
def executeTitForTwoTats (opp : List Move) : Move :=
  if opp.length < 2 then Move.Cooperate
  else
    let a := opp.getD (opp.length - 2) Move.Cooperate
    let b := opp.getD (opp.length - 1) Move.Cooperate
    if a = Move.Defect ∧ b = Move.Defect then Move.Defect else Move.Cooperate

/-- `execute_gradual`: defect while own defections are below the
triangular target set by the opponent's defection count. -/
def executeGradual (opp my : List Move) (_params : StrategyParams) : Move :=
  let theirDefections := opp.countP (· == Move.Defect)
  let myDefections := my.countP (· == Move.Defect)
  let expected := theirDefections * (theirDefections + 1) / 2
  if myDefections < expected then Move.Defect else Move.Cooperate

/-- `execute_strategy` (`strategy.rs` lines 99-139): the `initial_moves`
bitmask override for rounds 0-7, then dispatch on the base tag.
`none` models the panic inside `execute_pavlov`. -/
def executeStrategy (strategy : Strategy) (opp my : List Move) (round : Nat)
    (rng : SeededRng) : Option (Move × SeededRng) :=
  if round < 8 ∧ (strategy.params.initialMoves >>> round) &&& 1 = 1 then
    some (Move.Defect, rng)
  else
    match strategy.base with
    | StrategyBase.TitForTat => some (executeTitForTat opp strategy.params rng)
    | StrategyBase.AlwaysDefect => some (Move.Defect, rng)
    | StrategyBase.AlwaysCooperate => some (Move.Cooperate, rng)
    | StrategyBase.GrimTrigger => some (executeGrimTrigger opp strategy.params, rng)
    | StrategyBase.Pavlov => (executePavlov opp my).map (fun m => (m, rng))
    | StrategyBase.SuspiciousTitForTat =>
      some (executeSuspiciousTitForTat opp strategy.params rng)
    | StrategyBase.Random => some (executeRandom strategy.params rng)
    | StrategyBase.TitForTwoTats => some (executeTitForTwoTats opp, rng)
    | StrategyBase.Gradual => some (executeGradual opp my strategy.params, rng)

/-! ## `vm.rs` — the bytecode VM -/

/-- `MAX_BYTECODE_LEN`. -/
def MAX_BYTECODE_LEN : Nat := 64

/-- `MAX_FUEL`. -/
def MAX_FUEL : Nat := 128

/-- `STACK_SIZE`. -/
def STACK_SIZE : Nat := 8

namespace op

def COOP : Nat := 0x00
def PUSH : Nat := 0x01
def OPP_LAST : Nat := 0x02
def MY_LAST : Nat := 0x03
def OPP_N : Nat := 0x04
def MY_N : Nat := 0x05
def OPP_DEFECTS : Nat := 0x06
def MY_DEFECTS : Nat := 0x07
def ROUND : Nat := 0x08
def RAND : Nat := 0x09
def ADD : Nat := 0x0A
def SUB : Nat := 0x0B
def MUL : Nat := 0x0C
def GT : Nat := 0x0D
def LT : Nat := 0x0E
def EQ : Nat := 0x0F
def NOT : Nat := 0x10
def AND : Nat := 0x11
def OR : Nat := 0x12
def DUP : Nat := 0x13
def JMP_FWD : Nat := 0x14
def JMP_FWD_IF : Nat := 0x15
def DEFECT : Nat := 0x16
def SCORE_LAST : Nat := 0x17
def RETURN : Nat := 0x18

end op

/-- `BytecodeError` (`vm.rs` lines 55-69). -/
inductive BytecodeError where
  | Empty
  | TooLong
  | UnknownOpcode (offset : Nat) (opcode : Nat)
  | TruncatedImmediate (offset : Nat)
  | JumpOutOfBounds (offset : Nat)
  | NoTerminal
  deriving Repr, DecidableEq

/-- The validation scan of `validate_bytecode` (`vm.rs` lines 104-156).
The loop variant is `len - pc`, which the explicit `fuel` parameter
dominates whenever `fuel ≥ len - pc` (the fuel-0 case is unreachable
from `validateBytecode`). -/
def validateScan (code : List Nat) : Nat → Nat → Bool → Except BytecodeError Unit
  | 0, _, hasTerminal =>
    if hasTerminal then Except.ok () else Except.error BytecodeError.NoTerminal
  | fuel + 1, pc, hasTerminal =>
    if pc < code.length then
      if code.getD pc 0 = op.COOP ∨ code.getD pc 0 = op.DEFECT ∨ code.getD pc 0 = op.RETURN then
        validateScan code fuel (pc + 1) true
      else if code.getD pc 0 = op.PUSH then
        if pc + 1 ≥ code.length then Except.error (BytecodeError.TruncatedImmediate pc)
        else validateScan code fuel (pc + 2) hasTerminal
      else if code.getD pc 0 = op.JMP_FWD ∨ code.getD pc 0 = op.JMP_FWD_IF then
        if pc + 1 ≥ code.length then Except.error (BytecodeError.TruncatedImmediate pc)
        else
          let offset := code.getD (pc + 1) 0
          if pc + 2 + offset > code.length then
            Except.error (BytecodeError.JumpOutOfBounds pc)
          else validateScan code fuel (pc + 2) hasTerminal
      else if code.getD pc 0 = op.OPP_LAST ∨ code.getD pc 0 = op.MY_LAST ∨ code.getD pc 0 = op.OPP_N ∨
          code.getD pc 0 = op.MY_N ∨ code.getD pc 0 = op.OPP_DEFECTS ∨ code.getD pc 0 = op.MY_DEFECTS ∨
          code.getD pc 0 = op.ROUND ∨ code.getD pc 0 = op.RAND ∨ code.getD pc 0 = op.ADD ∨ code.getD pc 0 = op.SUB ∨
          code.getD pc 0 = op.MUL ∨ code.getD pc 0 = op.GT ∨ code.getD pc 0 = op.LT ∨ code.getD pc 0 = op.EQ ∨
          code.getD pc 0 = op.NOT ∨ code.getD pc 0 = op.AND ∨ code.getD pc 0 = op.OR ∨ code.getD pc 0 = op.DUP ∨
          code.getD pc 0 = op.SCORE_LAST then
        validateScan code fuel (pc + 1) hasTerminal
      else Except.error (BytecodeError.UnknownOpcode pc (code.getD pc 0))
    else
      if hasTerminal then Except.ok () else Except.error BytecodeError.NoTerminal

/-- `validate_bytecode` (`vm.rs` lines 96-157). -/
def validateBytecode (code : List Nat) : Except BytecodeError Unit :=
  if code.length = 0 then Except.error BytecodeError.Empty
  else if code.length > MAX_BYTECODE_LEN then Except.error BytecodeError.TooLong
  else validateScan code (code.length + 1) 0 false

/-- `push`: fails (`none`) when the 8-slot stack is full.  The stack is
modelled top-first (`v :: rest`), matching the array-plus-pointer of the
source. -/
def vmPush (stack : List Nat) (v : Nat) : Option (List Nat) :=
  if stack.length ≥ STACK_SIZE then none else some (v :: stack)

/-- `pop`: fails (`none`) on an empty stack. -/
def vmPop (stack : List Nat) : Option (Nat × List Nat) :=
  match stack with
  | [] => none
  | v :: rest => some (v, rest)

/-- `move_to_u8`: Defect ↦ 1, Cooperate or missing ↦ 0. -/
def moveToU8 (m : Option Move) : Nat :=
  match m with
  | some Move.Defect => 1
  | _ => 0

/-- `history_n_ago`: the move `n` rounds back, 0 when out of range. -/
def historyNAgo (h : List Move) (n : Nat) : Nat :=
  if n ≥ h.length then 0
  else
    match h.getD (h.length - 1 - n) Move.Cooperate with
    | Move.Cooperate => 0
    | Move.Defect => 1

/-- `count_defects`: number of defections, saturated at 255. -/
def countDefects (h : List Move) : Nat :=
  min (h.countP (· == Move.Defect)) 255

/-- `u8::saturating_add`. -/
def satAdd (a b : Nat) : Nat := min (a + b) 255

/-- `u8::saturating_mul`. -/
def satMul (a b : Nat) : Nat := min (a * b) 255

/-- Bool to 0/1 (`u8::from`). -/
def b2n (p : Bool) : Nat := if p then 1 else 0

/-- The possible outcomes of one iteration of the interpreter loop. -/
inductive StepRes where
  | done (r : Option Move × SeededRng)
  | next (pc : Nat) (stack : List Nat) (rng : SeededRng)

/-- One iteration of the `while` loop of `execute_inner`
(`vm.rs` lines 188-358): decode the opcode at `pc` and either halt with
a result (`done`) or continue at the next program counter (`next`).
Leaving the loop — `pc` at or past the end — is `done (none, rng)`. -/
def vmStep (code : List Nat) (opp my : List Move) (round : Nat)
    (pc : Nat) (stack : List Nat) (rng : SeededRng) : StepRes :=
  if pc < code.length then
      if code.getD pc 0 = op.COOP then StepRes.done (some Move.Cooperate, rng)
      else if code.getD pc 0 = op.DEFECT then StepRes.done (some Move.Defect, rng)
      else if code.getD pc 0 = op.RETURN then
        match vmPop stack with
        | none => StepRes.done (none, rng)
        | some (v, _) =>
          StepRes.done (some (if v = 0 then Move.Cooperate else Move.Defect), rng)
      else if code.getD pc 0 = op.PUSH then
        match code.get? (pc + 1) with
        | none => StepRes.done (none, rng)
        | some imm =>
          match vmPush stack imm with
          | none => StepRes.done (none, rng)
          | some st => StepRes.next (pc + 2) st rng
      else if code.getD pc 0 = op.OPP_LAST then
        match vmPush stack (moveToU8 opp.getLast?) with
        | none => StepRes.done (none, rng)
        | some st => StepRes.next (pc + 1) st rng
      else if code.getD pc 0 = op.MY_LAST then
        match vmPush stack (moveToU8 my.getLast?) with
        | none => StepRes.done (none, rng)
        | some st => StepRes.next (pc + 1) st rng
      else if code.getD pc 0 = op.OPP_N then
        match vmPop stack with
        | none => StepRes.done (none, rng)
        | some (n, st) =>
          match vmPush st (historyNAgo opp n) with
          | none => StepRes.done (none, rng)
          | some st' => StepRes.next (pc + 1) st' rng
      else if code.getD pc 0 = op.MY_N then
        match vmPop stack with
        | none => StepRes.done (none, rng)
        | some (n, st) =>
          match vmPush st (historyNAgo my n) with
          | none => StepRes.done (none, rng)
          | some st' => StepRes.next (pc + 1) st' rng
      else if code.getD pc 0 = op.OPP_DEFECTS then
        match vmPush stack (countDefects opp) with
        | none => StepRes.done (none, rng)
        | some st => StepRes.next (pc + 1) st rng
      else if code.getD pc 0 = op.MY_DEFECTS then
        match vmPush stack (countDefects my) with
        | none => StepRes.done (none, rng)
        | some st => StepRes.next (pc + 1) st rng
      else if code.getD pc 0 = op.ROUND then
        match vmPush stack round with
        | none => StepRes.done (none, rng)
        | some st => StepRes.next (pc + 1) st rng
      else if code.getD pc 0 = op.RAND then
        let (v, rng') := rng.nextPercent
        match vmPush stack v with
        | none => StepRes.done (none, rng')
        | some st => StepRes.next (pc + 1) st rng'
      else if code.getD pc 0 = op.ADD then
        match vmPop stack with
        | none => StepRes.done (none, rng)
        | some (b, st) =>
          match vmPop st with
          | none => StepRes.done (none, rng)
          | some (a, st') =>
            match vmPush st' (satAdd a b) with
            | none => StepRes.done (none, rng)
            | some st'' => StepRes.next (pc + 1) st'' rng
      else if code.getD pc 0 = op.SUB then
        match vmPop stack with
        | none => StepRes.done (none, rng)
        | some (b, st) =>
          match vmPop st with
          | none => StepRes.done (none, rng)
          | some (a, st') =>
            match vmPush st' (a - b) with
            | none => StepRes.done (none, rng)
            | some st'' => StepRes.next (pc + 1) st'' rng
      else if code.getD pc 0 = op.MUL then
        match vmPop stack with
        | none => StepRes.done (none, rng)
        | some (b, st) =>
          match vmPop st with
          | none => StepRes.done (none, rng)
          | some (a, st') =>
            match vmPush st' (satMul a b) with
            | none => StepRes.done (none, rng)
            | some st'' => StepRes.next (pc + 1) st'' rng
      else if code.getD pc 0 = op.GT then
        match vmPop stack with
        | none => StepRes.done (none, rng)
        | some (b, st) =>
          match vmPop st with
          | none => StepRes.done (none, rng)
          | some (a, st') =>
            match vmPush st' (b2n (a > b)) with
            | none => StepRes.done (none, rng)
            | some st'' => StepRes.next (pc + 1) st'' rng
      else if code.getD pc 0 = op.LT then
        match vmPop stack with
        | none => StepRes.done (none, rng)
        | some (b, st) =>
          match vmPop st with
          | none => StepRes.done (none, rng)
          | some (a, st') =>
            match vmPush st' (b2n (a < b)) with
            | none => StepRes.done (none, rng)
            | some st'' => StepRes.next (pc + 1) st'' rng
      else if code.getD pc 0 = op.EQ then
        match vmPop stack with
        | none => StepRes.done (none, rng)
        | some (b, st) =>
          match vmPop st with
          | none => StepRes.done (none, rng)
          | some (a, st') =>
            match vmPush st' (b2n (a = b)) with
            | none => StepRes.done (none, rng)
            | some st'' => StepRes.next (pc + 1) st'' rng
      else if code.getD pc 0 = op.NOT then
        match vmPop stack with
        | none => StepRes.done (none, rng)
        | some (a, st) =>
          match vmPush st (b2n (a = 0)) with
          | none => StepRes.done (none, rng)
          | some st' => StepRes.next (pc + 1) st' rng
      else if code.getD pc 0 = op.AND then
        match vmPop stack with
        | none => StepRes.done (none, rng)
        | some (b, st) =>
          match vmPop st with
          | none => StepRes.done (none, rng)
          | some (a, st') =>
            match vmPush st' (b2n (a ≠ 0 ∧ b ≠ 0)) with
            | none => StepRes.done (none, rng)
            | some st'' => StepRes.next (pc + 1) st'' rng
      else if code.getD pc 0 = op.OR then
        match vmPop stack with
        | none => StepRes.done (none, rng)
        | some (b, st) =>
          match vmPop st with
          | none => StepRes.done (none, rng)
          | some (a, st') =>
            match vmPush st' (b2n (a ≠ 0 ∨ b ≠ 0)) with
            | none => StepRes.done (none, rng)
            | some st'' => StepRes.next (pc + 1) st'' rng
      else if code.getD pc 0 = op.DUP then
        match vmPop stack with
        | none => StepRes.done (none, rng)
        | some (a, st) =>
          match vmPush st a with
          | none => StepRes.done (none, rng)
          | some st' =>
            match vmPush st' a with
            | none => StepRes.done (none, rng)
            | some st'' => StepRes.next (pc + 1) st'' rng
      else if code.getD pc 0 = op.JMP_FWD then
        match code.get? (pc + 1) with
        | none => StepRes.done (none, rng)
        | some offset => StepRes.next (pc + 2 + offset) stack rng
      else if code.getD pc 0 = op.JMP_FWD_IF then
        match vmPop stack with
        | none => StepRes.done (none, rng)
        | some (cond, st) =>
          match code.get? (pc + 1) with
          | none => StepRes.done (none, rng)
          | some offset =>
            if cond ≠ 0 then StepRes.next (pc + 2 + offset) st rng
            else StepRes.next (pc + 2) st rng
      else if code.getD pc 0 = op.SCORE_LAST then
        let v :=
          if my.length = 0 then 3
          else
            let myLast := my.getLast?.getD Move.Cooperate
            let oppLast := opp.getLast?.getD Move.Cooperate
            (payoff myLast oppLast).1
        match vmPush stack v with
        | none => StepRes.done (none, rng)
        | some st => StepRes.next (pc + 1) st rng
      else StepRes.done (none, rng)
    else StepRes.done (none, rng)


/-- The interpreter loop of `execute_inner`: run `vmStep` with a
decrementing instruction budget.  The source increments a fuel counter
and bails out above `MAX_FUEL`; starting from `gas = MAX_FUEL` and
decrementing is the same loop.  Fuel exhaustion yields `(none, rng)`,
exactly as falling off the end does. -/
def execLoop (code : List Nat) (opp my : List Move) (round : Nat) :
    Nat → Nat → List Nat → SeededRng → Option Move × SeededRng
  | 0, _, _, rng => (none, rng)
  | gas + 1, pc, stack, rng =>
    match vmStep code opp my round pc stack rng with
    | StepRes.done r => r
    | StepRes.next pc' stack' rng' => execLoop code opp my round gas pc' stack' rng'

/-- `execute_inner`: run the loop with the full fuel budget from `pc = 0`
and an empty stack. -/
def executeInner (code : List Nat) (opp my : List Move) (round : Nat)
    (rng : SeededRng) : Option Move × SeededRng :=
  execLoop code opp my round MAX_FUEL 0 [] rng

/-- `execute_bytecode` (`vm.rs` lines 164-173): any runtime fault
resolves to Cooperate. -/
def executeBytecode (code : List Nat) (opp my : List Move) (round : Nat)
    (rng : SeededRng) : Move × SeededRng :=
  let (r, rng') := executeInner code opp my round rng
  (r.getD Move.Cooperate, rng')

/-! ## `game.rs` — the match orchestrator -/

/-- Modelled from the spec: `PlayerStrategy`, the tagged sum
`Builtin(tag, params) | Custom(bytecode)` (spec §3 and §9), whose
definition is re-exported by `lib.rs` but absent from the packaged
`strategy.rs`. -/
inductive PlayerStrategy where
  | Builtin (s : Strategy)
  | Custom (code : List Nat)

/-- Modelled from the spec: `execute_player_strategy` switches on the tag
once per round (spec §9), dispatching to `execute_strategy` for a
built-in and to `execute_bytecode` for custom bytecode. -/
def executePlayerStrategy (ps : PlayerStrategy) (opp my : List Move)
    (round : Nat) (rng : SeededRng) : Option (Move × SeededRng) :=
  match ps with
  | PlayerStrategy.Builtin s => executeStrategy s opp my round rng
  | PlayerStrategy.Custom code => some (executeBytecode code opp my round rng)

/-- `RoundResult` (`game.rs`). -/
structure RoundResult where
  round : Nat
  moveA : Move
  moveB : Move
  scoreA : Nat
  scoreB : Nat
  cumulativeA : Nat
  cumulativeB : Nat
  deriving Repr, DecidableEq

/-- `MatchResult` (`game.rs`). -/
structure MatchResult where
  rounds : List RoundResult
  totalScoreA : Nat
  totalScoreB : Nat
  roundCount : Nat
  deriving Repr, DecidableEq

/-- `RoundConfig`. -/
structure RoundConfig where
  minRounds : Nat
  maxRounds : Nat
  endProbability : Nat
  deriving Repr, DecidableEq

/-- `RoundConfig::standard()`: ≤ 1000 participants. -/
def RoundConfig.standard : RoundConfig := ⟨20, 50, 5⟩

/-- `RoundConfig::compressed()`: > 1000 participants. -/
def RoundConfig.compressed : RoundConfig := ⟨10, 30, 7⟩

/-- The geometric early-stop walk of `determine_round_count`
(`game.rs` lines 69-80).  The loop variant is `max_rounds - rounds`,
dominated by `fuel`. -/
def drcGo (cfg : RoundConfig) : Nat → Nat → SeededRng → Nat × SeededRng
  | 0, rounds, rng => (rounds, rng)
  | fuel + 1, rounds, rng =>
    if rounds < cfg.maxRounds then
      let (p, rng') := rng.nextPercent
      if p < cfg.endProbability then (rounds, rng')
      else drcGo cfg fuel (rounds + 1) rng'
    else (rounds, rng)

/-- `determine_round_count`. -/
def determineRoundCount (rng : SeededRng) (cfg : RoundConfig) : Nat × SeededRng :=
  drcGo cfg (cfg.maxRounds - cfg.minRounds) cfg.minRounds rng

/-- The per-round loop of `run_match` (`game.rs` lines 114-140),
recursing on the number of remaining rounds.  `none` propagates a panic
from a strategy evaluation. -/
def matchLoop (a b : PlayerStrategy) (rngMain : SeededRng) :
    Nat → Nat → List Move → List Move → List RoundResult → Nat → Nat →
    Option (List RoundResult × Nat × Nat)
  | 0, _, _, _, acc, tA, tB => some (acc, tA, tB)
  | rem + 1, round, hA, hB, acc, tA, tB =>
    let rngA := rngMain.forRound (round * 2)
    let rngB := rngMain.forRound (round * 2 + 1)
    match executePlayerStrategy a hB hA round rngA with
    | none => none
    | some (mA, _) =>
      match executePlayerStrategy b hA hB round rngB with
      | none => none
      | some (mB, _) =>
        let (sA, sB) := payoff mA mB
        matchLoop a b rngMain rem (round + 1) (hA ++ [mA]) (hB ++ [mB])
          (acc ++ [⟨round, mA, mB, sA, sB, tA + sA, tB + sB⟩]) (tA + sA) (tB + sB)

/-- `run_match` (`game.rs` lines 93-148). -/
def runMatch (a b : PlayerStrategy) (seed : List Nat) (matchIndex : Nat)
    (participantCount : Nat) : Option MatchResult :=
  let rng0 := SeededRng.new seed matchIndex
  let cfg := if participantCount ≤ 1000 then RoundConfig.standard
             else RoundConfig.compressed
  let (rc, rng) := determineRoundCount rng0 cfg
  (matchLoop a b rng rc 0 [] [] [] 0 0).map
    (fun r => ⟨r.1, r.2.1, r.2.2, rc⟩)

/-! ## `pairing.rs` — the deterministic pairing generator -/

/-- `u32::div_ceil` (no intermediate overflow in the source). -/
def divCeil (a b : Nat) : Nat := a / b + if a % b = 0 then 0 else 1

/-- `calculate_match_count_inner` (`pairing.rs` lines 115-129).  The
`u32` products wrap. -/
def calculateMatchCountInner (n k : Nat) : Nat :=
  if n < 2 ∨ k = 0 then 0
  else if n ≤ k + 1 then
    let cN2 := (n * (n - 1)) % u32Mod / 2
    let cycles := divCeil k (n - 1)
    (cN2 * cycles) % u32Mod
  else
    let available := if n % 2 = 0 then n / 2 - 1 else n / 2
    let offsetsToUse := min (divCeil k 2) available
    (offsetsToUse * n) % u32Mod

/-- `calculate_match_count` (the seed is unused). -/
def calculateMatchCount (n k : Nat) (_seed : List Nat) : Nat :=
  calculateMatchCountInner n k

/-- The Newton iteration of `isqrt_ceil` (`pairing.rs` lines 136-149).
One loop step is `x := y; y := (x + n/x)/2`; it runs while `y < x`.
When the new `x` would be 0 the source would next divide by zero, a
panic, modelled by `none`.  `x` strictly decreases, so `fuel` bounds
the iteration count whenever `fuel > x`. -/
def newtonGo32 (n : Nat) : Nat → Nat → Nat → Option Nat
  | 0, _, _ => none
  | fuel + 1, x, y =>
    if y < x then
      if y = 0 then none
      else newtonGo32 n fuel y (((y + n / y) % u32Mod) / 2)
    else some x

/-- `isqrt_ceil` (`pairing.rs` lines 132-149).  `x + 1` wraps at 2^32
(relevant only at `n = u32::MAX`, where the source panics). -/
def isqrtCeil (n : Nat) : Option Nat :=
  if n ≤ 1 then some n
  else
    match newtonGo32 n (n + 1) n (((n + 1) % u32Mod) / 2) with
    | none => none
    | some x => some (if x * x = n then x else x + 1)

/-- `feistel_round_fn` (`pairing.rs` lines 152-154): keyed
multiply-add-shift, truncated to `u32`, reduced mod `modulus`. -/
def feistelRoundFn (input key modulus : Nat) : Nat :=
  ((((input * (key ||| 1)) % u64Mod + (key >>> 32)) % u64Mod) >>> 16) % u32Mod % modulus

/-- `derive_feistel_keys` (`pairing.rs` lines 157-164): six `next_u64`
draws from the dedicated stream `u32::MAX`. -/
def keysGo : Nat → SeededRng → List Nat
  | 0, _ => []
  | fuel + 1, rng =>
    let (k, rng') := rng.nextU64
    k :: keysGo fuel rng'

/-- `derive_feistel_keys`. -/
def deriveFeistelKeys (seed : List Nat) : List Nat :=
  keysGo 6 (SeededRng.new seed 4294967295)

/-- The six alternating Feistel rounds (`pairing.rs` lines 178-184),
folding over the key list with its enumeration index. -/
def feistelMix (half : Nat) : List Nat → Nat → Nat × Nat → Nat × Nat
  | [], _, lr => lr
  | key :: rest, i, (l, r) =>
    if i % 2 = 0 then
      feistelMix half rest (i + 1) (l, (r + feistelRoundFn l key half) % half)
    else
      feistelMix half rest (i + 1) ((l + feistelRoundFn r key half) % half, r)

/-- One full pass of the Feistel network: split, mix, recombine
(`pairing.rs` lines 176-186). -/
def feistelPass (keys : List Nat) (half val : Nat) : Nat :=
  let lr := feistelMix half keys 0 (val / half, val % half)
  lr.1 * half + lr.2

/-- The cycle-walking loop of `feistel_permute`: apply the network, stop
as soon as the value is back inside the domain, give up (`none`, the
source's `None`) after 1000 applications. -/
def cycleWalk (g : Nat → Nat) (d : Nat) : Nat → Nat → Option Nat
  | 0, _ => none
  | fuel + 1, val =>
    let v := g val
    if v < d then some v else cycleWalk g d fuel v

/-- `feistel_permute` (`pairing.rs` lines 167-193).  The outer `none`
models the panic inside `isqrt_ceil`; `some none` is the source's `None`
(cycle-walk exhaustion). -/
def feistelPermute (idx domainSize : Nat) (keys : List Nat) : Option (Option Nat) :=
  if domainSize ≤ 1 then some (some 0)
  else
    match isqrtCeil domainSize with
    | none => none
    | some half => some (cycleWalk (feistelPass keys half) domainSize 1000 idx)

/-- Floyd's sampling loop of `select_offsets` (`pairing.rs` lines
207-221): for each `j`, draw `t ∈ [1, j]` and keep `t`, or `j` when `t`
is already present. -/
def floydGo (rng : SeededRng) (acc : List Nat) : List Nat → List Nat
  | [] => acc
  | j :: rest =>
    let (t0, rng') := rng.nextRange j
    let t := t0 + 1
    let v := if t ∈ acc then j else t
    floydGo rng' (acc ++ [v]) rest

/-- `select_offsets` (`pairing.rs` lines 197-224): sample
`min(⌈k/2⌉, available, 50)` offsets from `[1, available]` and sort them.
The returned list is the filled prefix `result[..count]`;
`sort_unstable` is modelled by insertion sort, which computes the same
function on `Nat` lists (the sorted permutation of a list of naturals is
unique). -/
def selectOffsets (n k : Nat) (seed : List Nat) : List Nat :=
  let available := if n % 2 = 0 then n / 2 - 1 else n / 2
  let m := min (min (divCeil k 2) available) 50
  let js := List.range' (available - m + 1) m
  (floydGo (SeededRng.new seed 0) [] js).insertionSort (· ≤ ·)

/-- The decrementing correction loop of `unrank_pair`
(`pairing.rs` lines 243-245): while `b > 0` and `b(b-1)/2 > rank`
(wrapping product), decrement `b`. -/
def unrankDown (rank : Nat) : Nat → Nat
  | 0 => 0
  | b + 1 =>
    if ((b + 1) * b) % u32Mod / 2 > rank then unrankDown rank b
    else b + 1

/-- The incrementing correction loop of `unrank_pair`
(`pairing.rs` lines 246-248): while `(b+1)b/2 ≤ rank` (wrapping
product), increment `b`.  The source loop is unbounded; for ranks
≥ 2^31 the wrapped comparison never fails and the loop never exits,
which `none` models.  `fuel` dominates the iteration count of every
terminating execution. -/
def unrankUp (rank : Nat) : Nat → Nat → Option Nat
  | 0, _ => none
  | fuel + 1, b =>
    if ((b + 1) * b) % u32Mod / 2 ≤ rank then unrankUp rank fuel (b + 1)
    else some b

/-- The `u64` Newton iteration of `unrank_pair` (`pairing.rs` lines
231-238); no wrapping occurs for `val = 1 + 8·rank` with a `u32` rank. -/
def newtonGo64 (val : Nat) : Nat → Nat → Nat → Option Nat
  | 0, _, _ => none
  | fuel + 1, s, t =>
    if t < s then newtonGo64 val fuel t ((t + val / t) / 2)
    else some s

/-- `unrank_pair` (`pairing.rs` lines 229-251).  `none` models
non-termination of the incrementing loop (equivalently, the debug-build
overflow panic).  The final subtraction wraps like the source's `u32`
subtraction. -/
def unrankPair (rank : Nat) : Option (Nat × Nat) :=
  let val := 1 + 8 * rank
  match newtonGo64 val (val + 1) val ((val + 1) / 2) with
  | none => none
  | some s =>
    let b0 := ((1 + s) / 2) % u32Mod
    let b1 := unrankDown rank b0
    match unrankUp rank 1099511627776 b1 with
    | none => none
    | some b =>
      let a := (rank + u32Mod - ((b * (b - 1)) % u32Mod / 2)) % u32Mod
      some (a, b)

/-- `canonical_to_pair_round_robin` (`pairing.rs` lines 254-258).
`rank % 0` would panic in Rust (unreachable: the round-robin regime has
`2 ≤ n ≤ 65536`). -/
def canonicalToPairRoundRobin (canonicalIdx n : Nat) : Option (Nat × Nat) :=
  let cN2 := (n * (n - 1)) % u32Mod / 2
  if cN2 = 0 then none
  else unrankPair (canonicalIdx % cN2)

/-- `canonical_to_pair_circular` (`pairing.rs` lines 261-271).
`offsets[group]` out of bounds is a panic (`none`). -/
def canonicalToPairCircular (canonicalIdx n : Nat) (offsets : List Nat) :
    Option (Nat × Nat) :=
  let group := canonicalIdx / n
  let i := canonicalIdx % n
  match offsets.get? group with
  | none => none
  | some d =>
    let j := (i + d) % n
    some (if i < j then (i, j) else (j, i))

/-- The `filter_map` collection loop of `generate_all_pairings`.
`f i = none` aborts (a panic inside the closure); `f i = some none`
skips the element (the closure returned `None`); `f i = some (some p)`
keeps `p`. -/
def buildPairs (f : Nat → Option (Option (Nat × Nat))) :
    List Nat → Option (List (Nat × Nat))
  | [] => some []
  | i :: rest =>
    match f i with
    | none => none
    | some none => buildPairs f rest
    | some (some p) => (buildPairs f rest).map (p :: ·)

/-- `generate_all_pairings` (`pairing.rs` lines 37-72).  The outer
`none` models a panic while building the vector. -/
def generateAllPairings (n k : Nat) (seed : List Nat) : Option (List (Nat × Nat)) :=
  if n < 2 then some []
  else
    let total := calculateMatchCountInner n k
    if total = 0 then some []
    else
      let keys := deriveFeistelKeys seed
      if n ≤ k + 1 then
        buildPairs (fun i =>
          match feistelPermute i total keys with
          | none => none
          | some none => some none
          | some (some c) =>
            match canonicalToPairRoundRobin c n with
            | none => none
            | some p => some (some p)) (List.range total)
      else
        let offs := selectOffsets n k seed
        buildPairs (fun i =>
          match feistelPermute i total keys with
          | none => none
          | some none => some none
          | some (some c) =>
            match canonicalToPairCircular c n offs with
            | none => none
            | some p => some (some p)) (List.range total)

/-- `get_pairing_for_match` (`pairing.rs` lines 75-98).  The outer
`none` models a panic; `some none` is the source's `None`. -/
def getPairingForMatch (n k : Nat) (seed : List Nat) (matchIndex : Nat) :
    Option (Option (Nat × Nat)) :=
  let total := calculateMatchCountInner n k
  if matchIndex ≥ total then some none
  else
    let keys := deriveFeistelKeys seed
    match feistelPermute matchIndex total keys with
    | none => none
    | some none => some none
    | some (some canonical) =>
      if n ≤ k + 1 then
        match canonicalToPairRoundRobin canonical n with
        | none => none
        | some p => some (some p)
      else
        match canonicalToPairCircular canonical n (selectOffsets n k seed) with
        | none => none
        | some p => some (some p)

/-! ## Declarative companions to the validation scan

These mirror the instruction classification of `validate_bytecode` so
its outcome can be characterised position by position. -/

/-- The terminal opcodes (`COOP`, `DEFECT`, `RETURN`). -/
def isTerminalOp (b : Nat) : Bool :=
  b == op.COOP || b == op.DEFECT || b == op.RETURN

/-- The opcode with an immediate operand (`PUSH`). -/
def isImmOp (b : Nat) : Bool := b == op.PUSH

/-- The forward-jump opcodes. -/
def isJmpOp (b : Nat) : Bool := b == op.JMP_FWD || b == op.JMP_FWD_IF

/-- The remaining single-byte opcodes of the table. -/
def isPlainOp (b : Nat) : Bool :=
  b == op.OPP_LAST || b == op.MY_LAST || b == op.OPP_N || b == op.MY_N ||
  b == op.OPP_DEFECTS || b == op.MY_DEFECTS || b == op.ROUND || b == op.RAND ||
  b == op.ADD || b == op.SUB || b == op.MUL || b == op.GT || b == op.LT ||
  b == op.EQ || b == op.NOT || b == op.AND || b == op.OR || b == op.DUP ||
  b == op.SCORE_LAST

/-- Membership in the opcode table of `vm.rs`. -/
def knownOpcode (b : Nat) : Bool :=
  isTerminalOp b || isImmOp b || isJmpOp b || isPlainOp b

/-- Whether the linear scan from `pc` completes without a fault
(unknown opcode, truncated immediate, out-of-bounds jump). -/
def scanOkB (code : List Nat) : Nat → Nat → Bool
  | 0, _ => true
  | fuel + 1, pc =>
    if pc < code.length then
      if isTerminalOp (code.getD pc 0) then scanOkB code fuel (pc + 1)
      else if isImmOp (code.getD pc 0) then
        if pc + 1 ≥ code.length then false else scanOkB code fuel (pc + 2)
      else if isJmpOp (code.getD pc 0) then
        if pc + 1 ≥ code.length then false
        else if pc + 2 + code.getD (pc + 1) 0 > code.length then false
        else scanOkB code fuel (pc + 2)
      else if isPlainOp (code.getD pc 0) then scanOkB code fuel (pc + 1)
      else false
    else true

/-- Whether the fault-free part of the linear scan from `pc` visits a
terminal opcode. -/
def hasTermB (code : List Nat) : Nat → Nat → Bool
  | 0, _ => false
  | fuel + 1, pc =>
    if pc < code.length then
      if isTerminalOp (code.getD pc 0) then true
      else if isImmOp (code.getD pc 0) then
        if pc + 1 ≥ code.length then false else hasTermB code fuel (pc + 2)
      else if isJmpOp (code.getD pc 0) then
        if pc + 1 ≥ code.length then false
        else if pc + 2 + code.getD (pc + 1) 0 > code.length then false
        else hasTermB code fuel (pc + 2)
      else if isPlainOp (code.getD pc 0) then hasTermB code fuel (pc + 1)
      else false
    else false

/-- Whether the linear scan from `pc` visits position `t` before (or at)
its first fault. -/
def reachesB (code : List Nat) : Nat → Nat → Nat → Bool
  | 0, _, _ => false
  | fuel + 1, pc, t =>
    if pc = t then true
    else if pc < code.length then
      if isTerminalOp (code.getD pc 0) then reachesB code fuel (pc + 1) t
      else if isImmOp (code.getD pc 0) then
        if pc + 1 ≥ code.length then false else reachesB code fuel (pc + 2) t
      else if isJmpOp (code.getD pc 0) then
        if pc + 1 ≥ code.length then false
        else if pc + 2 + code.getD (pc + 1) 0 > code.length then false
        else reachesB code fuel (pc + 2) t
      else if isPlainOp (code.getD pc 0) then reachesB code fuel (pc + 1) t
      else false
    else false

/-- The scan of a whole program accepts. -/
def scanAccepts (code : List Nat) : Bool := scanOkB code (code.length + 1) 0

/-- The scan of a whole program sees a terminal opcode. -/
def scanHasTerminal (code : List Nat) : Bool := hasTermB code (code.length + 1) 0

/-- The scan of a whole program reaches offset `off`. -/
def scanReaches (code : List Nat) (off : Nat) : Bool :=
  reachesB code (code.length + 1) 0 off

/-- Decidable equality for validation results. -/
instance : DecidableEq (Except BytecodeError Unit) := fun a b =>
  match a, b with
  | Except.ok (), Except.ok () => isTrue rfl
  | Except.error e1, Except.error e2 =>
    match decEq e1 e2 with
    | isTrue h => isTrue (by rw [h])
    | isFalse h => isFalse (fun hh => h (by injection hh))
  | Except.ok (), Except.error _ => isFalse (fun h => Except.noConfusion h)
  | Except.error _, Except.ok () => isFalse (fun h => Except.noConfusion h)

/-! ## Concrete bytecode programs used in the theorems -/

/-- Nine consecutive `PUSH 1` instructions then `RETURN`: the ninth push
overflows the 8-slot stack. -/
def ninePushesProg : List Nat :=
  [op.PUSH, 1, op.PUSH, 1, op.PUSH, 1, op.PUSH, 1, op.PUSH, 1,
   op.PUSH, 1, op.PUSH, 1, op.PUSH, 1, op.PUSH, 1, op.RETURN]

/-- `PUSH 1` followed by 127 `NOT`s and a `RETURN`: 129 instructions,
one more than the 128-instruction fuel budget. -/
def fuelProg : List Nat :=
  [op.PUSH, 1] ++ List.replicate 127 op.NOT ++ [op.RETURN]

/-- Bytecode for AlwaysCooperate: `COOP`. -/
def codeAlwaysCooperate : List Nat := [op.COOP]

/-- Bytecode for AlwaysDefect: `DEFECT`. -/
def codeAlwaysDefect : List Nat := [op.DEFECT]

/-- Bytecode for TitForTat: `OPP_LAST RETURN`. -/
def codeTitForTat : List Nat := [op.OPP_LAST, op.RETURN]

/-- Bytecode for GrimTrigger: defect iff the opponent ever defected. -/
def codeGrimTrigger : List Nat :=
  [op.OPP_DEFECTS, op.PUSH, 0, op.GT, op.JMP_FWD_IF, 1, op.COOP, op.DEFECT]

/-- Bytecode for SuspiciousTitForTat: defect on round 0, else mirror. -/
def codeSuspiciousTitForTat : List Nat :=
  [op.ROUND, op.PUSH, 0, op.EQ, op.JMP_FWD_IF, 2, op.OPP_LAST, op.RETURN, op.DEFECT]

/-- Bytecode for TitForTwoTats: cooperate before round 2, else defect
iff the opponent's last two moves were both Defect. -/
def codeTitForTwoTats : List Nat :=
  [op.ROUND, op.PUSH, 2, op.LT, op.JMP_FWD_IF, 8,
   op.PUSH, 0, op.OPP_N, op.PUSH, 1, op.OPP_N, op.AND, op.RETURN, op.COOP]

/-- Bytecode for Pavlov: cooperate on round 0; repeat the own last move
after a payoff ≥ 3, flip it otherwise. -/
def codePavlov : List Nat :=
  [op.ROUND, op.PUSH, 0, op.EQ, op.JMP_FWD_IF, 11,
   op.SCORE_LAST, op.PUSH, 3, op.LT, op.JMP_FWD_IF, 2,
   op.MY_LAST, op.RETURN, op.MY_LAST, op.NOT, op.RETURN, op.COOP]

/-- Bytecode for Random: cooperate iff `next_percent() < 50`. -/
def codeRandom : List Nat :=
  [op.RAND, op.PUSH, 50, op.LT, op.NOT, op.RETURN]

/-- Bytecode for Gradual: defect iff `2·my_defects < d·(d+1)` with `d`
the opponent's defection count (saturating arithmetic agrees with the
exact comparison on match-reachable histories). -/
def codeGradual : List Nat :=
  [op.MY_DEFECTS, op.PUSH, 2, op.MUL,
   op.OPP_DEFECTS, op.DUP, op.PUSH, 1, op.ADD, op.MUL, op.LT, op.RETURN]

/-- The bytecode encoding chosen for each built-in strategy. -/
def codeFor : StrategyBase → List Nat
  | StrategyBase.TitForTat => codeTitForTat
  | StrategyBase.AlwaysDefect => codeAlwaysDefect
  | StrategyBase.AlwaysCooperate => codeAlwaysCooperate
  | StrategyBase.GrimTrigger => codeGrimTrigger
  | StrategyBase.Pavlov => codePavlov
  | StrategyBase.SuspiciousTitForTat => codeSuspiciousTitForTat
  | StrategyBase.Random => codeRandom
  | StrategyBase.TitForTwoTats => codeTitForTwoTats
  | StrategyBase.Gradual => codeGradual

/-! # Theorems -/

/-! ## Generic helper lemmas -/

/-- Every `Move` is Cooperate or Defect. -/
theorem move_eq_or (m : Move) : m = Move.Cooperate ∨ m = Move.Defect := by
  cases m
  · exact Or.inl rfl
  · exact Or.inr rfl

/-- The program counter strictly increases on every continuing step of
the VM. -/
theorem vmStep_next_lt {code : List Nat} {opp my : List Move} {round pc : Nat}
    {stack : List Nat} {rng : SeededRng} {pc' : Nat} {stack' : List Nat}
    {rng' : SeededRng}
    (h : vmStep code opp my round pc stack rng = StepRes.next pc' stack' rng') :
    pc < pc' := by
  delta vmStep at h
  by_cases hpc : pc < code.length
  case neg => rw [if_neg hpc] at h; cases h
  rw [if_pos hpc] at h
  by_cases hb0 : code.getD pc 0 = op.COOP
  · rw [if_pos hb0] at h
    repeat first
    | omega
    | (cases h)
    | (injection h with e1 e2 e3)
    | (split at h)
    | (dsimp only at h)
  rw [if_neg hb0] at h
  by_cases hb1 : code.getD pc 0 = op.DEFECT
  · rw [if_pos hb1] at h
    repeat first
    | omega
    | (cases h)
    | (injection h with e1 e2 e3)
    | (split at h)
    | (dsimp only at h)
  rw [if_neg hb1] at h
  by_cases hb2 : code.getD pc 0 = op.RETURN
  · rw [if_pos hb2] at h
    repeat first
    | omega
    | (cases h)
    | (injection h with e1 e2 e3)
    | (split at h)
    | (dsimp only at h)
  rw [if_neg hb2] at h
  by_cases hb3 : code.getD pc 0 = op.PUSH
  · rw [if_pos hb3] at h
    repeat first
    | omega
    | (cases h)
    | (injection h with e1 e2 e3)
    | (split at h)
    | (dsimp only at h)
  rw [if_neg hb3] at h
  by_cases hb4 : code.getD pc 0 = op.OPP_LAST
  · rw [if_pos hb4] at h
    repeat first
    | omega
    | (cases h)
    | (injection h with e1 e2 e3)
    | (split at h)
    | (dsimp only at h)
  rw [if_neg hb4] at h
  by_cases hb5 : code.getD pc 0 = op.MY_LAST
  · rw [if_pos hb5] at h
    repeat first
    | omega
    | (cases h)
    | (injection h with e1 e2 e3)
    | (split at h)
    | (dsimp only at h)
  rw [if_neg hb5] at h
  by_cases hb6 : code.getD pc 0 = op.OPP_N
  · rw [if_pos hb6] at h
    repeat first
    | omega
    | (cases h)
    | (injection h with e1 e2 e3)
    | (split at h)
    | (dsimp only at h)
  rw [if_neg hb6] at h
  by_cases hb7 : code.getD pc 0 = op.MY_N
  · rw [if_pos hb7] at h
    repeat first
    | omega
    | (cases h)
    | (injection h with e1 e2 e3)
    | (split at h)
    | (dsimp only at h)
  rw [if_neg hb7] at h
  by_cases hb8 : code.getD pc 0 = op.OPP_DEFECTS
  · rw [if_pos hb8] at h
    repeat first
    | omega
    | (cases h)
    | (injection h with e1 e2 e3)
    | (split at h)
    | (dsimp only at h)
  rw [if_neg hb8] at h
  by_cases hb9 : code.getD pc 0 = op.MY_DEFECTS
  · rw [if_pos hb9] at h
    repeat first
    | omega
    | (cases h)
    | (injection h with e1 e2 e3)
    | (split at h)
    | (dsimp only at h)
  rw [if_neg hb9] at h
  by_cases hb10 : code.getD pc 0 = op.ROUND
  · rw [if_pos hb10] at h
    repeat first
    | omega
    | (cases h)
    | (injection h with e1 e2 e3)
    | (split at h)
    | (dsimp only at h)
  rw [if_neg hb10] at h
  by_cases hb11 : code.getD pc 0 = op.RAND
  · rw [if_pos hb11] at h
    repeat first
    | omega
    | (cases h)
    | (injection h with e1 e2 e3)
    | (split at h)
    | (dsimp only at h)
  rw [if_neg hb11] at h
  by_cases hb12 : code.getD pc 0 = op.ADD
  · rw [if_pos hb12] at h
    repeat first
    | omega
    | (cases h)
    | (injection h with e1 e2 e3)
    | (split at h)
    | (dsimp only at h)
  rw [if_neg hb12] at h
  by_cases hb13 : code.getD pc 0 = op.SUB
  · rw [if_pos hb13] at h
    repeat first
    | omega
    | (cases h)
    | (injection h with e1 e2 e3)
    | (split at h)
    | (dsimp only at h)
  rw [if_neg hb13] at h
  by_cases hb14 : code.getD pc 0 = op.MUL
  · rw [if_pos hb14] at h
    repeat first
    | omega
    | (cases h)
    | (injection h with e1 e2 e3)
    | (split at h)
    | (dsimp only at h)
  rw [if_neg hb14] at h
  by_cases hb15 : code.getD pc 0 = op.GT
  · rw [if_pos hb15] at h
    repeat first
    | omega
    | (cases h)
    | (injection h with e1 e2 e3)
    | (split at h)
    | (dsimp only at h)
  rw [if_neg hb15] at h
  by_cases hb16 : code.getD pc 0 = op.LT
  · rw [if_pos hb16] at h
    repeat first
    | omega
    | (cases h)
    | (injection h with e1 e2 e3)
    | (split at h)
    | (dsimp only at h)
  rw [if_neg hb16] at h
  by_cases hb17 : code.getD pc 0 = op.EQ
  · rw [if_pos hb17] at h
    repeat first
    | omega
    | (cases h)
    | (injection h with e1 e2 e3)
    | (split at h)
    | (dsimp only at h)
  rw [if_neg hb17] at h
  by_cases hb18 : code.getD pc 0 = op.NOT
  · rw [if_pos hb18] at h
    repeat first
    | omega
    | (cases h)
    | (injection h with e1 e2 e3)
    | (split at h)
    | (dsimp only at h)
  rw [if_neg hb18] at h
  by_cases hb19 : code.getD pc 0 = op.AND
  · rw [if_pos hb19] at h
    repeat first
    | omega
    | (cases h)
    | (injection h with e1 e2 e3)
    | (split at h)
    | (dsimp only at h)
  rw [if_neg hb19] at h
  by_cases hb20 : code.getD pc 0 = op.OR
  · rw [if_pos hb20] at h
    repeat first
    | omega
    | (cases h)
    | (injection h with e1 e2 e3)
    | (split at h)
    | (dsimp only at h)
  rw [if_neg hb20] at h
  by_cases hb21 : code.getD pc 0 = op.DUP
  · rw [if_pos hb21] at h
    repeat first
    | omega
    | (cases h)
    | (injection h with e1 e2 e3)
    | (split at h)
    | (dsimp only at h)
  rw [if_neg hb21] at h
  by_cases hb22 : code.getD pc 0 = op.JMP_FWD
  · rw [if_pos hb22] at h
    repeat first
    | omega
    | (cases h)
    | (injection h with e1 e2 e3)
    | (split at h)
    | (dsimp only at h)
  rw [if_neg hb22] at h
  by_cases hb23 : code.getD pc 0 = op.JMP_FWD_IF
  · rw [if_pos hb23] at h
    repeat first
    | omega
    | (cases h)
    | (injection h with e1 e2 e3)
    | (split at h)
    | (dsimp only at h)
  rw [if_neg hb23] at h
  by_cases hb24 : code.getD pc 0 = op.SCORE_LAST
  · rw [if_pos hb24] at h
    repeat first
    | omega
    | (cases h)
    | (injection h with e1 e2 e3)
    | (split at h)
    | (dsimp only at h)
  rw [if_neg hb24] at h
  cases h

/-- Out of the program, `vmStep` leaves the loop with no result. -/
theorem vmStep_oob {code : List Nat} {opp my : List Move} {round pc : Nat}
    {stack : List Nat} {rng : SeededRng} (hpc : ¬ pc < code.length) :
    vmStep code opp my round pc stack rng = StepRes.done (none, rng) := by
  delta vmStep
  rw [if_neg hpc]

/-- Unfolding `execLoop` at zero gas. -/
theorem execLoop_zero (code : List Nat) (opp my : List Move) (round pc : Nat)
    (stack : List Nat) (rng : SeededRng) :
    execLoop code opp my round 0 pc stack rng = (none, rng) := rfl

/-- Unfolding `execLoop` at positive gas. -/
theorem execLoop_succ (code : List Nat) (opp my : List Move)
    (round gas pc : Nat) (stack : List Nat) (rng : SeededRng) :
    execLoop code opp my round (gas + 1) pc stack rng =
      (match vmStep code opp my round pc stack rng with
       | StepRes.done r => r
       | StepRes.next pc' stack' rng' =>
         execLoop code opp my round gas pc' stack' rng') := rfl

/-- The result of the VM loop does not depend on the gas budget, as long
as the budget covers the remaining program length: `pc` strictly
increases each step, so at most `code.length - pc` steps ever run. -/
theorem execLoop_gas_congr (code : List Nat) (opp my : List Move) (round : Nat) :
    ∀ gas₁ gas₂ pc stack rng, code.length - pc ≤ gas₁ → code.length - pc ≤ gas₂ →
      execLoop code opp my round gas₁ pc stack rng =
      execLoop code opp my round gas₂ pc stack rng := by
  intro gas₁
  induction gas₁ with
  | zero =>
    intro gas₂ pc stack rng h1 _
    have hpc : ¬ pc < code.length := by omega
    cases gas₂ with
    | zero => rfl
    | succ g =>
      rw [execLoop_zero, execLoop_succ, vmStep_oob hpc]
  | succ g₁ ih =>
    intro gas₂ pc stack rng h1 h2
    cases gas₂ with
    | zero =>
      have hpc : ¬ pc < code.length := by omega
      rw [execLoop_zero, execLoop_succ, vmStep_oob hpc]
    | succ g₂ =>
      rw [execLoop_succ, execLoop_succ]
      cases hs : vmStep code opp my round pc stack rng with
      | done r => rfl
      | next pc' stack' rng' =>
        have hlt := vmStep_next_lt hs
        exact ih g₂ pc' stack' rng' (by omega) (by omega)

/-! ## C3 — the VM is total and fail-safe -/

/-- **C3.** `execute_bytecode` is total and fail-safe: for every byte
sequence, histories, round and rng it returns a `Move`; and each listed
fault — empty bytecode, a lone `RETURN` on an empty stack, nine
sequential pushes on the 8-slot stack, an unknown opcode byte, a
program executing more than 128 instructions, and a program that falls
off the end without a terminal — evaluates to Cooperate. -/
theorem C3_vm_total_and_failsafe :
    (∀ (code : List Nat) (opp my : List Move) (round : Nat) (rng : SeededRng),
      (executeBytecode code opp my round rng).1 = Move.Cooperate ∨
      (executeBytecode code opp my round rng).1 = Move.Defect) ∧
    (∀ (opp my : List Move) (round : Nat) (rng : SeededRng),
      (executeBytecode [] opp my round rng).1 = Move.Cooperate ∧
      (executeBytecode [op.RETURN] opp my round rng).1 = Move.Cooperate ∧
      (executeBytecode ninePushesProg opp my round rng).1 = Move.Cooperate ∧
      (executeBytecode [255] opp my round rng).1 = Move.Cooperate ∧
      (executeBytecode fuelProg opp my round rng).1 = Move.Cooperate ∧
      (executeBytecode [op.PUSH, 5] opp my round rng).1 = Move.Cooperate) := by
  constructor
  · intro code opp my round rng
    exact move_eq_or _
  · intro opp my round rng
    refine ⟨rfl, rfl, rfl, rfl, rfl, rfl⟩

/-! ## C4 — AlwaysDefect / AlwaysCooperate -/

/-- **C4 counterexample.**  The claim states that every strategy with
base AlwaysCooperate returns Cooperate for *every* parameter setting;
but with `initial_moves = 1` the round-0 override returns Defect. -/
theorem C4_counterexample :
    executeStrategy ⟨StrategyBase.AlwaysCooperate, ⟨0, 0, 0, 1, 50⟩⟩ [] [] 0 ⟨0⟩ =
      some (Move.Defect, ⟨0⟩) := rfl

/-- **C4 (amended).**  AlwaysDefect is constant Defect for every
parameter setting, history, round and rng.  AlwaysCooperate returns
Cooperate except that, on rounds 0-7, a set `initial_moves` bit for the
round overrides the move to Defect (so it is constant whenever
`initial_moves = 0`, in particular with default parameters). -/
theorem C4_amended (params : StrategyParams) (opp my : List Move)
    (round : Nat) (rng : SeededRng) :
    executeStrategy ⟨StrategyBase.AlwaysDefect, params⟩ opp my round rng =
      some (Move.Defect, rng) ∧
    executeStrategy ⟨StrategyBase.AlwaysCooperate, params⟩ opp my round rng =
      some ((if round < 8 ∧ (params.initialMoves >>> round) &&& 1 = 1 then
        Move.Defect else Move.Cooperate), rng) := by
  constructor
  · unfold executeStrategy
    split
    · rfl
    · rfl
  · unfold executeStrategy
    split
    · rfl
    · rfl

/-! ## C10 — the fuel-exhaustion branch is unreachable for ≤128-byte
programs -/

/-- **C10.**  Every continuing VM instruction strictly increases the
program counter, so a program of at most 128 bytes executes at most 128
instructions: the result of `execute_inner` is unchanged under any gas
budget of at least `MAX_FUEL` (the fuel-exhaustion branch never fires),
and validation only accepts programs of at most 64 ≤ 128 bytes. -/
theorem C10_fuel_unreachable (code : List Nat) :
    (∀ (opp my : List Move) (round pc : Nat) (stack : List Nat)
      (rng : SeededRng) (pc' : Nat) (stack' : List Nat) (rng' : SeededRng),
      vmStep code opp my round pc stack rng = StepRes.next pc' stack' rng' →
      pc < pc') ∧
    (code.length ≤ 128 →
      ∀ (opp my : List Move) (round : Nat) (rng : SeededRng) (gas : Nat),
        MAX_FUEL ≤ gas →
        execLoop code opp my round gas 0 [] rng =
          executeInner code opp my round rng) ∧
    (validateBytecode code = Except.ok () → code.length ≤ 128) := by
  refine ⟨fun _ _ _ _ _ _ _ _ _ h => vmStep_next_lt h, ?_, ?_⟩
  · intro hlen opp my round rng gas hgas
    exact execLoop_gas_congr code opp my round gas MAX_FUEL 0 [] rng
      (by simp only [MAX_FUEL] at hgas; omega)
      (by simp only [MAX_FUEL]; omega)
  · intro hok
    unfold validateBytecode at hok
    split at hok
    · cases hok
    · split at hok
      · cases hok
      · rename_i h1 h2
        unfold MAX_BYTECODE_LEN at h2
        omega

/-- **C10 witness.**  The single-instruction program `[COOP]` validates,
is within 128 bytes, and its execution is gas-independent at gas 200. -/
theorem C10_fuel_unreachable_witness :
    [op.COOP].length ≤ 128 ∧ MAX_FUEL ≤ 200 ∧
    validateBytecode [op.COOP] = Except.ok () ∧
    execLoop [op.COOP] [] [] 0 200 0 [] ⟨0⟩ = executeInner [op.COOP] [] [] 0 ⟨0⟩ ∧
    [op.COOP].length ≤ 128 :=
  ⟨by decide, by decide, rfl,
   (C10_fuel_unreachable [op.COOP]).2.1 (by decide) [] [] 0 ⟨0⟩ 200 (by decide),
   (C10_fuel_unreachable [op.COOP]).2.2 rfl⟩

/-! ## C8 — validation returns exactly the typed failures -/

/-- `isTerminalOp` as a proposition. -/
theorem isTerminalOp_iff (b : Nat) :
    isTerminalOp b = true ↔ (b = op.COOP ∨ b = op.DEFECT ∨ b = op.RETURN) := by
  simp [isTerminalOp, Bool.or_eq_true, beq_iff_eq, or_assoc]

/-- `isImmOp` as a proposition. -/
theorem isImmOp_iff (b : Nat) : isImmOp b = true ↔ b = op.PUSH := by
  simp [isImmOp, beq_iff_eq]

/-- `isJmpOp` as a proposition. -/
theorem isJmpOp_iff (b : Nat) :
    isJmpOp b = true ↔ (b = op.JMP_FWD ∨ b = op.JMP_FWD_IF) := by
  simp [isJmpOp, Bool.or_eq_true, beq_iff_eq]

/-- `isPlainOp` as a proposition. -/
theorem isPlainOp_iff (b : Nat) :
    isPlainOp b = true ↔
      (b = op.OPP_LAST ∨ b = op.MY_LAST ∨ b = op.OPP_N ∨ b = op.MY_N ∨
       b = op.OPP_DEFECTS ∨ b = op.MY_DEFECTS ∨ b = op.ROUND ∨ b = op.RAND ∨
       b = op.ADD ∨ b = op.SUB ∨ b = op.MUL ∨ b = op.GT ∨ b = op.LT ∨
       b = op.EQ ∨ b = op.NOT ∨ b = op.AND ∨ b = op.OR ∨ b = op.DUP ∨
       b = op.SCORE_LAST) := by
  simp [isPlainOp, Bool.or_eq_true, beq_iff_eq, or_assoc]

/-- The scan never revisits earlier positions. -/
theorem reachesB_lt (code : List Nat) :
    ∀ fuel pc t, t < pc → reachesB code fuel pc t = false := by
  intro fuel
  induction fuel with
  | zero => intro pc t _; rfl
  | succ f ih =>
    intro pc t h
    simp only [reachesB]
    rw [if_neg (show ¬ pc = t by omega)]
    by_cases hpc : pc < code.length
    · rw [if_pos hpc]
      repeat first
      | rfl
      | (exact ih _ _ (by omega))
      | split
    · rw [if_neg hpc]

/-- Terminal opcodes are in the table. -/
theorem knownOpcode_of_terminal {b : Nat} (h : isTerminalOp b = true) :
    knownOpcode b = true := by
  simp [knownOpcode, h]

/-- The immediate opcode is in the table. -/
theorem knownOpcode_of_imm {b : Nat} (h : isImmOp b = true) :
    knownOpcode b = true := by
  simp [knownOpcode, h]

/-- Jump opcodes are in the table. -/
theorem knownOpcode_of_jmp {b : Nat} (h : isJmpOp b = true) :
    knownOpcode b = true := by
  simp [knownOpcode, h]

/-- Plain opcodes are in the table. -/
theorem knownOpcode_of_plain {b : Nat} (h : isPlainOp b = true) :
    knownOpcode b = true := by
  simp [knownOpcode, h]

/-- The immediate opcode is not a jump. -/
theorem not_jmp_of_imm {b : Nat} (h : isImmOp b = true) : isJmpOp b = false := by
  rw [isImmOp_iff] at h
  subst h
  rfl

/-- Plain opcodes take no immediate. -/
theorem not_imm_of_plain {b : Nat} (h : isPlainOp b = true) : isImmOp b = false := by
  rw [isPlainOp_iff] at h
  rcases h with h|h|h|h|h|h|h|h|h|h|h|h|h|h|h|h|h|h|h <;> subst h <;> rfl

/-- Plain opcodes are not jumps. -/
theorem not_jmp_of_plain {b : Nat} (h : isPlainOp b = true) : isJmpOp b = false := by
  rw [isPlainOp_iff] at h
  rcases h with h|h|h|h|h|h|h|h|h|h|h|h|h|h|h|h|h|h|h <;> subst h <;> rfl

/-- The full characterisation of the validation scan, by induction on
its fuel: `Ok` means the scan is fault-free and saw a terminal,
`NoTerminal` that it is fault-free and saw none, and each fault error
names the first faulty offset; `Empty`/`TooLong` never arise here. -/
theorem validateScan_spec (code : List Nat) : ∀ fuel pc ht,
    (validateScan code fuel pc ht = Except.ok () ↔
      (scanOkB code fuel pc = true ∧ (ht = true ∨ hasTermB code fuel pc = true))) ∧
    (validateScan code fuel pc ht = Except.error BytecodeError.NoTerminal ↔
      (scanOkB code fuel pc = true ∧ ¬(ht = true ∨ hasTermB code fuel pc = true))) ∧
    (∀ off b, validateScan code fuel pc ht =
        Except.error (BytecodeError.UnknownOpcode off b) ↔
      (reachesB code fuel pc off = true ∧ off < code.length ∧
       code.getD off 0 = b ∧ knownOpcode b = false)) ∧
    (∀ off, validateScan code fuel pc ht =
        Except.error (BytecodeError.TruncatedImmediate off) ↔
      (reachesB code fuel pc off = true ∧ off < code.length ∧
       (isImmOp (code.getD off 0) = true ∨ isJmpOp (code.getD off 0) = true) ∧
       off + 1 ≥ code.length)) ∧
    (∀ off, validateScan code fuel pc ht =
        Except.error (BytecodeError.JumpOutOfBounds off) ↔
      (reachesB code fuel pc off = true ∧ off < code.length ∧
       isJmpOp (code.getD off 0) = true ∧ off + 1 < code.length ∧
       off + 2 + code.getD (off + 1) 0 > code.length)) ∧
    (validateScan code fuel pc ht ≠ Except.error BytecodeError.Empty) ∧
    (validateScan code fuel pc ht ≠ Except.error BytecodeError.TooLong) := by
  intro fuel
  induction fuel with
  | zero =>
    intro pc ht
    cases ht <;>
      simp [validateScan, scanOkB, hasTermB, reachesB]
  | succ f ih =>
    intro pc ht
    by_cases hpc : pc < code.length
    case neg =>
      simp only [validateScan, scanOkB, hasTermB, reachesB, hpc, if_false,
        ite_false, if_neg hpc]
      cases ht <;> simp <;> omega
    case pos =>
      by_cases hT : isTerminalOp (code.getD pc 0) = true
      case pos =>
        have hT' := (isTerminalOp_iff _).1 hT
        obtain ⟨I1, I2, I3, I4, I5, I6, I7⟩ := ih (pc + 1) true
        simp only [validateScan, scanOkB, hasTermB, reachesB, hpc, hT, hT',
          if_true, I1, I2, I3, I4, I5, I6, I7]
        refine ⟨by simp, by simp, ?_, ?_, ?_, I6, I7⟩
        · intro off b
          by_cases hoff : pc = off
          · subst hoff
            rw [reachesB_lt code f (pc + 1) pc (by omega)]
            simp only [if_pos rfl]
            constructor
            · rintro ⟨hr, _⟩
              cases hr
            · rintro ⟨_, _, hb, hk⟩
              rw [← hb, knownOpcode_of_terminal hT] at hk
              cases hk
          · rw [if_neg hoff]
        · intro off
          by_cases hoff : pc = off
          · subst hoff
            rw [reachesB_lt code f (pc + 1) pc (by omega)]
            simp only [if_pos rfl]
            constructor
            · rintro ⟨hr, _⟩
              cases hr
            · rintro ⟨_, _, hio, hge⟩
              rcases (isTerminalOp_iff _).1 hT with h | h | h <;>
                rcases hio with hio | hio <;>
                  first
                  | (rw [isImmOp_iff] at hio
                     simp only [op.COOP, op.DEFECT, op.RETURN, op.PUSH] at h hio
                     omega)
                  | (rcases (isJmpOp_iff _).1 hio with hio | hio <;>
                      (simp only [op.COOP, op.DEFECT, op.RETURN, op.JMP_FWD,
                         op.JMP_FWD_IF] at h hio
                       omega))
          · rw [if_neg hoff]
        · intro off
          by_cases hoff : pc = off
          · subst hoff
            rw [reachesB_lt code f (pc + 1) pc (by omega)]
            simp only [if_pos rfl]
            constructor
            · rintro ⟨hr, _⟩
              cases hr
            · rintro ⟨_, _, hio, _⟩
              rcases (isTerminalOp_iff _).1 hT with h | h | h <;>
                rcases (isJmpOp_iff _).1 hio with hio | hio <;>
                  (simp only [op.COOP, op.DEFECT, op.RETURN, op.JMP_FWD,
                     op.JMP_FWD_IF] at h hio
                   omega)
          · rw [if_neg hoff]
      case neg =>
      have hT2 : ¬(code.getD pc 0 = op.COOP ∨ code.getD pc 0 = op.DEFECT ∨
          code.getD pc 0 = op.RETURN) := fun hc => hT ((isTerminalOp_iff _).2 hc)
      by_cases hI : isImmOp (code.getD pc 0) = true
      case pos =>
        have hI' := (isImmOp_iff _).1 hI
        by_cases htr : pc + 1 ≥ code.length
        case pos =>
          simp only [validateScan, scanOkB, hasTermB, reachesB, hpc, hT, hI,
            eq_true hI', hT2, htr, if_true, if_false, ite_true, ite_false,
            Bool.false_eq_true]
          refine ⟨by simp, by simp, ?_, ?_, ?_, by simp, by simp⟩
          · intro off b
            constructor
            · intro h
              cases h
            · rintro ⟨hr, _, hb, hk⟩
              by_cases hoff : pc = off
              · subst hoff
                rw [if_pos rfl] at hr
                rw [← hb, knownOpcode_of_imm hI] at hk
                cases hk
              · rw [if_neg hoff] at hr
                cases hr
          · intro off
            constructor
            · intro h
              injection h with h'
              injection h' with h2
              subst h2
              exact ⟨by rw [if_pos rfl], hpc, Or.inl hI, htr⟩
            · rintro ⟨hr, hlt, _, _⟩
              by_cases hoff : pc = off
              · subst hoff
                rfl
              · rw [if_neg hoff] at hr
                cases hr
          · intro off
            constructor
            · intro h
              cases h
            · rintro ⟨hr, _, hj, _⟩
              by_cases hoff : pc = off
              · subst hoff
                rw [not_jmp_of_imm hI] at hj
                cases hj
              · rw [if_neg hoff] at hr
                cases hr
        case neg =>
          obtain ⟨I1, I2, I3, I4, I5, I6, I7⟩ := ih (pc + 2) ht
          simp only [validateScan, scanOkB, hasTermB, reachesB, hpc, hT, hI,
            eq_true hI', hT2, htr, if_true, if_false, ite_true, ite_false,
            Bool.false_eq_true, I1, I2, I3, I4, I5, I6, I7]
          refine ⟨by trivial, by trivial, ?_, ?_, ?_, I6, I7⟩
          · intro off b
            by_cases hoff : pc = off
            · subst hoff
              rw [reachesB_lt code f (pc + 2) pc (by omega)]
              simp only [if_pos rfl]
              constructor
              · rintro ⟨hr, _⟩
                cases hr
              · rintro ⟨_, _, hb, hk⟩
                rw [← hb, knownOpcode_of_imm hI] at hk
                cases hk
            · rw [if_neg hoff]
          · intro off
            by_cases hoff : pc = off
            · subst hoff
              rw [reachesB_lt code f (pc + 2) pc (by omega)]
              simp only [if_pos rfl]
              constructor
              · rintro ⟨hr, _⟩
                cases hr
              · rintro ⟨_, _, _, hge⟩
                omega
            · rw [if_neg hoff]
          · intro off
            by_cases hoff : pc = off
            · subst hoff
              rw [reachesB_lt code f (pc + 2) pc (by omega)]
              simp only [if_pos rfl]
              constructor
              · rintro ⟨hr, _⟩
                cases hr
              · rintro ⟨_, _, hj, _⟩
                rw [not_jmp_of_imm hI] at hj
                cases hj
            · rw [if_neg hoff]
      case neg =>
      have hI2 : ¬(code.getD pc 0 = op.PUSH) := fun hc => hI ((isImmOp_iff _).2 hc)
      by_cases hJ : isJmpOp (code.getD pc 0) = true
      case pos =>
        have hJ' := (isJmpOp_iff _).1 hJ
        by_cases htr : pc + 1 ≥ code.length
        case pos =>
          simp only [validateScan, scanOkB, hasTermB, reachesB, hpc, hT, hI,
            hJ, hT2, hI2, hJ', htr, if_true, if_false, ite_true, ite_false,
            Bool.false_eq_true]
          refine ⟨by simp, by simp, ?_, ?_, ?_, by simp, by simp⟩
          · intro off b
            constructor
            · intro h
              cases h
            · rintro ⟨hr, _, hb, hk⟩
              by_cases hoff : pc = off
              · subst hoff
                rw [← hb, knownOpcode_of_jmp hJ] at hk
                cases hk
              · rw [if_neg hoff] at hr
                cases hr
          · intro off
            constructor
            · intro h
              injection h with h'
              injection h' with h2
              subst h2
              exact ⟨by rw [if_pos rfl], hpc, Or.inr hJ, htr⟩
            · rintro ⟨hr, _, _, _⟩
              by_cases hoff : pc = off
              · subst hoff
                rfl
              · rw [if_neg hoff] at hr
                cases hr
          · intro off
            constructor
            · intro h
              cases h
            · rintro ⟨hr, _, _, hlt, _⟩
              by_cases hoff : pc = off
              · subst hoff
                omega
              · rw [if_neg hoff] at hr
                cases hr
        case neg =>
          by_cases hoob : pc + 2 + code.getD (pc + 1) 0 > code.length
          case pos =>
            simp only [validateScan, scanOkB, hasTermB, reachesB, hpc, hT, hI,
              hJ, hT2, hI2, hJ', htr, hoob, if_true, if_false, ite_true,
              ite_false, Bool.false_eq_true]
            refine ⟨by simp, by simp, ?_, ?_, ?_, by simp, by simp⟩
            · intro off b
              constructor
              · intro h
                cases h
              · rintro ⟨hr, _, hb, hk⟩
                by_cases hoff : pc = off
                · subst hoff
                  rw [← hb, knownOpcode_of_jmp hJ] at hk
                  cases hk
                · rw [if_neg hoff] at hr
                  cases hr
            · intro off
              constructor
              · intro h
                cases h
              · rintro ⟨hr, _, _, hge⟩
                by_cases hoff : pc = off
                · subst hoff
                  omega
                · rw [if_neg hoff] at hr
                  cases hr
            · intro off
              constructor
              · intro h
                injection h with h'
                injection h' with h2
                subst h2
                exact ⟨by rw [if_pos rfl], hpc, hJ, by omega, hoob⟩
              · rintro ⟨hr, _, _, _, _⟩
                by_cases hoff : pc = off
                · subst hoff
                  rfl
                · rw [if_neg hoff] at hr
                  cases hr
          case neg =>
            obtain ⟨I1, I2, I3, I4, I5, I6, I7⟩ := ih (pc + 2) ht
            simp only [validateScan, scanOkB, hasTermB, reachesB, hpc, hT, hI,
              hJ, hT2, hI2, hJ', htr, hoob, if_true, if_false, ite_true,
              ite_false, Bool.false_eq_true, I1, I2, I3, I4, I5, I6, I7]
            refine ⟨by trivial, by trivial, ?_, ?_, ?_, I6, I7⟩
            · intro off b
              by_cases hoff : pc = off
              · subst hoff
                rw [reachesB_lt code f (pc + 2) pc (by omega)]
                simp only [if_pos rfl]
                constructor
                · rintro ⟨hr, _⟩
                  cases hr
                · rintro ⟨_, _, hb, hk⟩
                  rw [← hb, knownOpcode_of_jmp hJ] at hk
                  cases hk
              · rw [if_neg hoff]
            · intro off
              by_cases hoff : pc = off
              · subst hoff
                rw [reachesB_lt code f (pc + 2) pc (by omega)]
                simp only [if_pos rfl]
                constructor
                · rintro ⟨hr, _⟩
                  cases hr
                · rintro ⟨_, _, _, hge⟩
                  omega
              · rw [if_neg hoff]
            · intro off
              by_cases hoff : pc = off
              · subst hoff
                rw [reachesB_lt code f (pc + 2) pc (by omega)]
                simp only [if_pos rfl]
                constructor
                · rintro ⟨hr, _⟩
                  cases hr
                · rintro ⟨_, _, _, _, hb⟩
                  omega
              · rw [if_neg hoff]
      case neg =>
      have hJ2 : ¬(code.getD pc 0 = op.JMP_FWD ∨ code.getD pc 0 = op.JMP_FWD_IF) :=
        fun hc => hJ ((isJmpOp_iff _).2 hc)
      by_cases hP : isPlainOp (code.getD pc 0) = true
      case pos =>
        have hP' := (isPlainOp_iff _).1 hP
        obtain ⟨I1, I2, I3, I4, I5, I6, I7⟩ := ih (pc + 1) ht
        simp only [validateScan, scanOkB, hasTermB, reachesB, hpc, hT, hI, hJ,
          hP, hT2, hI2, hJ2, hP', if_true, if_false, ite_true, ite_false,
          Bool.false_eq_true, I1, I2, I3, I4, I5, I6, I7]
        refine ⟨by trivial, by trivial, ?_, ?_, ?_, I6, I7⟩
        · intro off b
          by_cases hoff : pc = off
          · subst hoff
            rw [reachesB_lt code f (pc + 1) pc (by omega)]
            simp only [if_pos rfl]
            constructor
            · rintro ⟨hr, _⟩
              cases hr
            · rintro ⟨_, _, hb, hk⟩
              rw [← hb, knownOpcode_of_plain hP] at hk
              cases hk
          · rw [if_neg hoff]
        · intro off
          by_cases hoff : pc = off
          · subst hoff
            rw [reachesB_lt code f (pc + 1) pc (by omega)]
            simp only [if_pos rfl]
            constructor
            · rintro ⟨hr, _⟩
              cases hr
            · rintro ⟨_, _, hio, _⟩
              rcases hio with hio | hio
              · rw [not_imm_of_plain hP] at hio
                cases hio
              · rw [not_jmp_of_plain hP] at hio
                cases hio
          · rw [if_neg hoff]
        · intro off
          by_cases hoff : pc = off
          · subst hoff
            rw [reachesB_lt code f (pc + 1) pc (by omega)]
            simp only [if_pos rfl]
            constructor
            · rintro ⟨hr, _⟩
              cases hr
            · rintro ⟨_, _, hio, _⟩
              rw [not_jmp_of_plain hP] at hio
              cases hio
          · rw [if_neg hoff]
      case neg =>
        have hP2 : ¬(code.getD pc 0 = op.OPP_LAST ∨ code.getD pc 0 = op.MY_LAST ∨
            code.getD pc 0 = op.OPP_N ∨ code.getD pc 0 = op.MY_N ∨
            code.getD pc 0 = op.OPP_DEFECTS ∨ code.getD pc 0 = op.MY_DEFECTS ∨
            code.getD pc 0 = op.ROUND ∨ code.getD pc 0 = op.RAND ∨
            code.getD pc 0 = op.ADD ∨ code.getD pc 0 = op.SUB ∨
            code.getD pc 0 = op.MUL ∨ code.getD pc 0 = op.GT ∨
            code.getD pc 0 = op.LT ∨ code.getD pc 0 = op.EQ ∨
            code.getD pc 0 = op.NOT ∨ code.getD pc 0 = op.AND ∨
            code.getD pc 0 = op.OR ∨ code.getD pc 0 = op.DUP ∨
            code.getD pc 0 = op.SCORE_LAST) :=
          fun hc => hP ((isPlainOp_iff _).2 hc)
        have hkn : knownOpcode (code.getD pc 0) = false := by
          simp only [knownOpcode, Bool.or_eq_false_iff]
          exact ⟨⟨⟨by simpa using hT, by simpa using hI⟩, by simpa using hJ⟩,
            by simpa using hP⟩
        simp only [validateScan, scanOkB, hasTermB, reachesB, hpc, hT, hI, hJ,
          hP, hT2, hI2, hJ2, hP2, if_true, if_false, ite_true, ite_false,
          Bool.false_eq_true]
        refine ⟨by simp, by simp, ?_, ?_, ?_, by simp, by simp⟩
        · intro off b
          constructor
          · intro h
            injection h with h'
            injection h' with h2 h3
            subst h2
            subst h3
            exact ⟨by rw [if_pos rfl], hpc, rfl, hkn⟩
          · rintro ⟨hr, _, hb, _⟩
            by_cases hoff : pc = off
            · subst hoff
              rw [hb]
            · rw [if_neg hoff] at hr
              cases hr
        · intro off
          constructor
          · intro h
            cases h
          · rintro ⟨hr, _, hio, _⟩
            by_cases hoff : pc = off
            · subst hoff
              rcases hio with hio | hio
              · exact absurd ((isImmOp_iff _).1 hio) hI2
              · exact absurd ((isJmpOp_iff _).1 hio) (fun hc => hJ2 hc)
            · rw [if_neg hoff] at hr
              cases hr
        · intro off
          constructor
          · intro h
            cases h
          · rintro ⟨hr, _, hio, _, _⟩
            by_cases hoff : pc = off
            · subst hoff
              exact absurd ((isJmpOp_iff _).1 hio) (fun hc => hJ2 hc)
            · rw [if_neg hoff] at hr
              cases hr

/-- **C8 counterexample.**  The claim speaks of a "26-entry table", but
the opcode table of `vm.rs` has 25 entries: exactly 25 of the 256
possible opcode bytes escape an `UnknownOpcode` rejection at offset 0. -/
theorem C8_counterexample :
    ((List.range 256).filter (fun b => knownOpcode b)).length = 25 ∧
    ((List.range 256).filter (fun b =>
      decide (validateBytecode [b, 0] ≠
        Except.error (BytecodeError.UnknownOpcode 0 b)))).length = 25 ∧
    ((List.range 256).filter (fun b =>
      decide (validateBytecode [b, 0] ≠
        Except.error (BytecodeError.UnknownOpcode 0 b)))).length ≠ 26 := by
  refine ⟨by decide, by decide, by decide⟩

/-- **C8 (amended).**  `validate_bytecode` returns exactly the typed
failures the spec lists (with a 25-entry, not 26-entry, opcode table):
`Empty` iff the program is empty, `TooLong` iff it exceeds 64 bytes, and
otherwise, scanning instructions from offset 0, `UnknownOpcode` exactly
at the first scanned offset holding a byte outside the table,
`TruncatedImmediate` exactly at the first scanned `PUSH`/jump whose
operand byte is missing, `JumpOutOfBounds` exactly at the first scanned
forward jump whose target `pc + 2 + offset` lands past the end,
`NoTerminal` iff the fault-free scan saw no `COOP`/`DEFECT`/`RETURN`
opcode, and `Ok(())` for every other program of 1 to 64 bytes. -/
theorem C8_amended (code : List Nat) :
    (validateBytecode code = Except.error BytecodeError.Empty ↔
      code.length = 0) ∧
    (validateBytecode code = Except.error BytecodeError.TooLong ↔
      code.length > 64) ∧
    (validateBytecode code = Except.ok () ↔
      (1 ≤ code.length ∧ code.length ≤ 64 ∧ scanAccepts code = true ∧
       scanHasTerminal code = true)) ∧
    (validateBytecode code = Except.error BytecodeError.NoTerminal ↔
      (1 ≤ code.length ∧ code.length ≤ 64 ∧ scanAccepts code = true ∧
       scanHasTerminal code = false)) ∧
    (∀ off b, validateBytecode code =
        Except.error (BytecodeError.UnknownOpcode off b) ↔
      (1 ≤ code.length ∧ code.length ≤ 64 ∧ scanReaches code off = true ∧
       off < code.length ∧ code.getD off 0 = b ∧ knownOpcode b = false)) ∧
    (∀ off, validateBytecode code =
        Except.error (BytecodeError.TruncatedImmediate off) ↔
      (1 ≤ code.length ∧ code.length ≤ 64 ∧ scanReaches code off = true ∧
       off < code.length ∧
       (isImmOp (code.getD off 0) = true ∨ isJmpOp (code.getD off 0) = true) ∧
       off + 1 ≥ code.length)) ∧
    (∀ off, validateBytecode code =
        Except.error (BytecodeError.JumpOutOfBounds off) ↔
      (1 ≤ code.length ∧ code.length ≤ 64 ∧ scanReaches code off = true ∧
       off < code.length ∧ isJmpOp (code.getD off 0) = true ∧
       off + 1 < code.length ∧
       off + 2 + code.getD (off + 1) 0 > code.length)) := by
  obtain ⟨S1, S2, S3, S4, S5, S6, S7⟩ :=
    validateScan_spec code (code.length + 1) 0 false
  unfold validateBytecode
  by_cases h0 : code.length = 0
  · rw [if_pos h0]
    refine ⟨⟨fun _ => h0, fun _ => rfl⟩, ?_, ?_, ?_, ?_, ?_, ?_⟩
    · constructor
      · intro h
        injection h with h'
        cases h'
      · intro h
        omega
    · constructor
      · intro h
        cases h
      · intro h
        omega
    · constructor
      · intro h
        injection h with h'
        cases h'
      · intro h
        omega
    · intro off b
      constructor
      · intro h
        injection h with h'
        cases h'
      · intro h
        omega
    · intro off
      constructor
      · intro h
        injection h with h'
        cases h'
      · intro h
        omega
    · intro off
      constructor
      · intro h
        injection h with h'
        cases h'
      · intro h
        omega
  · rw [if_neg h0]
    by_cases h64 : code.length > 64
    · rw [if_pos (show code.length > MAX_BYTECODE_LEN by
        simpa [MAX_BYTECODE_LEN] using h64)]
      refine ⟨?_, ⟨fun _ => h64, fun _ => rfl⟩, ?_, ?_, ?_, ?_, ?_⟩
      · constructor
        · intro h
          injection h with h'
          cases h'
        · intro h
          omega
      · constructor
        · intro h
          cases h
        · intro h
          omega
      · constructor
        · intro h
          injection h with h'
          cases h'
        · intro h
          omega
      · intro off b
        constructor
        · intro h
          injection h with h'
          cases h'
        · intro h
          omega
      · intro off
        constructor
        · intro h
          injection h with h'
          cases h'
        · intro h
          omega
      · intro off
        constructor
        · intro h
          injection h with h'
          cases h'
        · intro h
          omega
    · rw [if_neg (show ¬ code.length > MAX_BYTECODE_LEN by
        simpa [MAX_BYTECODE_LEN] using h64)]
      unfold scanAccepts scanHasTerminal scanReaches
      refine ⟨⟨fun h => absurd h S6, fun h => absurd h h0⟩,
        ⟨fun h => absurd h S7, fun h => absurd h h64⟩, ?_, ?_, ?_, ?_, ?_⟩
      · rw [S1]
        constructor
        · rintro ⟨hs, hterm⟩
          rcases hterm with ht | ht
          · cases ht
          · exact ⟨by omega, by omega, hs, ht⟩
        · rintro ⟨_, _, hs, ht⟩
          exact ⟨hs, Or.inr ht⟩
      · rw [S2]
        constructor
        · rintro ⟨hs, hterm⟩
          refine ⟨by omega, by omega, hs, ?_⟩
          cases hb : hasTermB code (code.length + 1) 0
          · rfl
          · exact absurd (Or.inr hb) hterm
        · rintro ⟨_, _, hs, ht⟩
          refine ⟨hs, ?_⟩
          rintro (hx | hx)
          · cases hx
          · rw [ht] at hx
            cases hx
      · intro off b
        rw [S3 off b]
        constructor
        · rintro ⟨hr, hlt, hb, hk⟩
          exact ⟨by omega, by omega, hr, hlt, hb, hk⟩
        · rintro ⟨_, _, hr, hlt, hb, hk⟩
          exact ⟨hr, hlt, hb, hk⟩
      · intro off
        rw [S4 off]
        constructor
        · rintro ⟨hr, hlt, hio, hge⟩
          exact ⟨by omega, by omega, hr, hlt, hio, hge⟩
        · rintro ⟨_, _, hr, hlt, hio, hge⟩
          exact ⟨hr, hlt, hio, hge⟩
      · intro off
        rw [S5 off]
        constructor
        · rintro ⟨hr, hlt, hj, hl1, hb⟩
          exact ⟨by omega, by omega, hr, hlt, hj, hl1, hb⟩
        · rintro ⟨_, _, hr, hlt, hj, hl1, hb⟩
          exact ⟨hr, hlt, hj, hl1, hb⟩

/-! ## C2 — bytecode parity with the nine built-in strategies -/

/-- Unfolding `matchLoop` with no rounds left. -/
theorem matchLoop_zero (a b : PlayerStrategy) (rngMain : SeededRng)
    (round : Nat) (hA hB : List Move) (acc : List RoundResult) (tA tB : Nat) :
    matchLoop a b rngMain 0 round hA hB acc tA tB = some (acc, tA, tB) := rfl

/-- Unfolding `matchLoop` with a round to play. -/
theorem matchLoop_succ (a b : PlayerStrategy) (rngMain : SeededRng)
    (rem round : Nat) (hA hB : List Move) (acc : List RoundResult) (tA tB : Nat) :
    matchLoop a b rngMain (rem + 1) round hA hB acc tA tB =
      (match executePlayerStrategy a hB hA round (rngMain.forRound (round * 2)) with
       | none => none
       | some (mA, _) =>
         match executePlayerStrategy b hA hB round (rngMain.forRound (round * 2 + 1)) with
         | none => none
         | some (mB, _) =>
           let sAB := payoff mA mB
           matchLoop a b rngMain rem (round + 1) (hA ++ [mA]) (hB ++ [mB])
             (acc ++ [⟨round, mA, mB, sAB.1, sAB.2, tA + sAB.1, tB + sAB.2⟩])
             (tA + sAB.1) (tB + sAB.2)) := rfl

/-- Pointwise agreement of two strategies on all match-reachable states
(equal-length histories, round below `bound`). -/
def AgreeBelow (bound : Nat) (a₁ a₂ : PlayerStrategy) : Prop :=
  ∀ (opp my : List Move) (round : Nat) (rng : SeededRng),
    opp.length = round → my.length = round → round < bound →
    executePlayerStrategy a₁ opp my round rng =
    executePlayerStrategy a₂ opp my round rng

/-- Replacing both players by pointwise-agreeing strategies leaves the
whole match loop unchanged. -/
theorem matchLoop_congr {a₁ a₂ b₁ b₂ : PlayerStrategy} {bound : Nat}
    (rngMain : SeededRng)
    (hagA : AgreeBelow bound a₁ a₂) (hagB : AgreeBelow bound b₁ b₂) :
    ∀ rem round hA hB acc tA tB, hA.length = round → hB.length = round →
      round + rem ≤ bound →
      matchLoop a₁ b₁ rngMain rem round hA hB acc tA tB =
      matchLoop a₂ b₂ rngMain rem round hA hB acc tA tB := by
  intro rem
  induction rem with
  | zero => intros; rfl
  | succ r ih =>
    intro round hA hB acc tA tB h1 h2 h3
    rw [matchLoop_succ, matchLoop_succ]
    rw [hagA hB hA round _ h2 h1 (by omega)]
    rw [hagB hA hB round _ h1 h2 (by omega)]
    rcases executePlayerStrategy a₂ hB hA round (rngMain.forRound (round * 2))
      with _ | ⟨mA, _⟩
    · rfl
    · rcases executePlayerStrategy b₂ hA hB round (rngMain.forRound (round * 2 + 1))
        with _ | ⟨mB, _⟩
      · rfl
      · dsimp only
        exact ih (round + 1) (hA ++ [mA]) (hB ++ [mB]) _ _ _
          (by simp [h1]) (by simp [h2]) (by omega)

/-- The round-count walk adds at most its fuel. -/
theorem drcGo_le (cfg : RoundConfig) :
    ∀ fuel rounds rng, (drcGo cfg fuel rounds rng).1 ≤ rounds + fuel := by
  intro fuel
  induction fuel with
  | zero => intro rounds rng; exact Nat.le_refl _
  | succ f ih =>
    intro rounds rng
    rw [show drcGo cfg (f + 1) rounds rng =
        (if rounds < cfg.maxRounds then
          (if (rng.nextPercent).1 < cfg.endProbability then (rounds, (rng.nextPercent).2)
           else drcGo cfg f (rounds + 1) (rng.nextPercent).2)
         else (rounds, rng)) from rfl]
    split
    · split
      · simp
      · exact le_trans (ih _ _) (by omega)
    · simp

/-- Replacing both players by agreeing strategies leaves `run_match`
unchanged (the round budget of either tier is at most 50). -/
theorem runMatch_congr {a₁ a₂ b₁ b₂ : PlayerStrategy}
    (hagA : AgreeBelow 50 a₁ a₂) (hagB : AgreeBelow 50 b₁ b₂)
    (seed : List Nat) (matchIndex participantCount : Nat) :
    runMatch a₁ b₁ seed matchIndex participantCount =
    runMatch a₂ b₂ seed matchIndex participantCount := by
  have h50 : ∀ (cfg : RoundConfig) (rng0 : SeededRng),
      cfg = RoundConfig.standard ∨ cfg = RoundConfig.compressed →
      (determineRoundCount rng0 cfg).1 ≤ 50 := by
    rintro cfg rng0 (rfl | rfl) <;>
      exact le_trans (drcGo_le _ _ _ _)
        (by norm_num [RoundConfig.standard, RoundConfig.compressed])
  have hcfg : (if participantCount ≤ 1000 then RoundConfig.standard
        else RoundConfig.compressed) = RoundConfig.standard ∨
      (if participantCount ≤ 1000 then RoundConfig.standard
        else RoundConfig.compressed) = RoundConfig.compressed := by
    split
    · exact Or.inl rfl
    · exact Or.inr rfl
  unfold runMatch
  dsimp only
  rcases hd : determineRoundCount (SeededRng.new seed matchIndex)
      (if participantCount ≤ 1000 then RoundConfig.standard
       else RoundConfig.compressed) with ⟨rc, rng⟩
  dsimp only
  have hrc : rc ≤ 50 := by
    have hx := h50 _ (SeededRng.new seed matchIndex) hcfg
    rw [hd] at hx
    exact hx
  rw [matchLoop_congr rng hagA hagB rc 0 [] [] [] 0 0 rfl rfl (by omega)]

/-- Agreement is reflexive. -/
theorem agreeBelow_refl (bound : Nat) (a : PlayerStrategy) : AgreeBelow bound a a :=
  fun _ _ _ _ _ _ _ => rfl

/-- With default parameters the `initial_moves` override never fires, so
`execute_strategy` reduces to the per-base executor. -/
theorem executeStrategy_default (base : StrategyBase) (opp my : List Move)
    (round : Nat) (rng : SeededRng) :
    executeStrategy (Strategy.new base) opp my round rng =
      (match base with
       | StrategyBase.TitForTat => some (executeTitForTat opp StrategyParams.default rng)
       | StrategyBase.AlwaysDefect => some (Move.Defect, rng)
       | StrategyBase.AlwaysCooperate => some (Move.Cooperate, rng)
       | StrategyBase.GrimTrigger => some (executeGrimTrigger opp StrategyParams.default, rng)
       | StrategyBase.Pavlov => (executePavlov opp my).map (fun m => (m, rng))
       | StrategyBase.SuspiciousTitForTat =>
         some (executeSuspiciousTitForTat opp StrategyParams.default rng)
       | StrategyBase.Random => some (executeRandom StrategyParams.default rng)
       | StrategyBase.TitForTwoTats => some (executeTitForTwoTats opp, rng)
       | StrategyBase.Gradual => some (executeGradual opp my StrategyParams.default, rng)) := by
  unfold executeStrategy
  rw [if_neg (by simp [Strategy.new, StrategyParams.default])]
  rfl

/-- Running one VM step that branches on a decidable condition. -/
theorem execLoop_branch (code : List Nat) (opp my : List Move) (round gas pc : Nat)
    (stack : List Nat) (rng : SeededRng) (c : Prop) [Decidable c]
    (pc₁ : Nat) (st₁ : List Nat) (pc₂ : Nat) (st₂ : List Nat)
    (h : vmStep code opp my round pc stack rng =
      if c then StepRes.next pc₁ st₁ rng else StepRes.next pc₂ st₂ rng) :
    execLoop code opp my round (gas + 1) pc stack rng =
      if c then execLoop code opp my round gas pc₁ st₁ rng
      else execLoop code opp my round gas pc₂ st₂ rng := by
  rw [execLoop_succ, h]
  by_cases hc : c
  · rw [if_pos hc, if_pos hc]
  · rw [if_neg hc, if_neg hc]

/-- The `COOP` program plays like AlwaysCooperate. -/
theorem agree_alwaysCooperate :
    AgreeBelow 50 (PlayerStrategy.Custom codeAlwaysCooperate)
      (PlayerStrategy.Builtin (Strategy.new StrategyBase.AlwaysCooperate)) := by
  intro opp my round rng _ _ _
  show some (Move.Cooperate, rng) =
    executeStrategy (Strategy.new StrategyBase.AlwaysCooperate) opp my round rng
  rw [executeStrategy_default]

/-- The `DEFECT` program plays like AlwaysDefect. -/
theorem agree_alwaysDefect :
    AgreeBelow 50 (PlayerStrategy.Custom codeAlwaysDefect)
      (PlayerStrategy.Builtin (Strategy.new StrategyBase.AlwaysDefect)) := by
  intro opp my round rng _ _ _
  show some (Move.Defect, rng) =
    executeStrategy (Strategy.new StrategyBase.AlwaysDefect) opp my round rng
  rw [executeStrategy_default]

/-- The `OPP_LAST RETURN` program plays like TitForTat. -/
theorem agree_titForTat :
    AgreeBelow 50 (PlayerStrategy.Custom codeTitForTat)
      (PlayerStrategy.Builtin (Strategy.new StrategyBase.TitForTat)) := by
  intro opp my round rng _ _ _
  show some ((if moveToU8 opp.getLast? = 0 then Move.Cooperate else Move.Defect), rng) =
    executeStrategy (Strategy.new StrategyBase.TitForTat) opp my round rng
  rw [executeStrategy_default]
  rcases hl : opp.getLast? with _ | m
  · simp [executeTitForTat, hl, moveToU8]
  · rcases m <;> simp [executeTitForTat, hl, moveToU8, StrategyParams.default]

/-- The GrimTrigger bytecode plays like GrimTrigger. -/
theorem agree_grimTrigger :
    AgreeBelow 50 (PlayerStrategy.Custom codeGrimTrigger)
      (PlayerStrategy.Builtin (Strategy.new StrategyBase.GrimTrigger)) := by
  intro opp my round rng _ _ _
  have hstep : executeInner codeGrimTrigger opp my round rng =
      (if b2n (0 < countDefects opp) ≠ 0 then (some Move.Defect, rng)
       else (some Move.Cooperate, rng)) := by
    refine Eq.trans (show executeInner codeGrimTrigger opp my round rng =
        execLoop codeGrimTrigger opp my round 125 4
          [b2n (0 < countDefects opp)] rng from rfl) ?_
    refine Eq.trans (execLoop_branch codeGrimTrigger opp my round 124 4
        [b2n (0 < countDefects opp)] rng (b2n (0 < countDefects opp) ≠ 0)
        7 [] 6 [] rfl) ?_
    split
    · rfl
    · rfl
  show some (executeBytecode codeGrimTrigger opp my round rng) =
    executeStrategy (Strategy.new StrategyBase.GrimTrigger) opp my round rng
  rw [executeStrategy_default,
    show executeBytecode codeGrimTrigger opp my round rng =
      ((executeInner codeGrimTrigger opp my round rng).1.getD Move.Cooperate,
       (executeInner codeGrimTrigger opp my round rng).2) from rfl, hstep]
  by_cases hc : 0 < countDefects opp
  · have hc2 : 0 < opp.countP (· == Move.Defect) := by
      unfold countDefects at hc
      omega
    simp [b2n, hc, executeGrimTrigger, hc2, StrategyParams.default]
  · have hc2 : ¬ 0 < opp.countP (· == Move.Defect) := by
      unfold countDefects at hc
      omega
    simp [b2n, hc, executeGrimTrigger, hc2, StrategyParams.default]

/-- The SuspiciousTitForTat bytecode plays like SuspiciousTitForTat on
match-reachable states (where `round = 0` iff the history is empty). -/
theorem agree_suspiciousTitForTat :
    AgreeBelow 50 (PlayerStrategy.Custom codeSuspiciousTitForTat)
      (PlayerStrategy.Builtin (Strategy.new StrategyBase.SuspiciousTitForTat)) := by
  intro opp my round rng h1 _ _
  have hstep : executeInner codeSuspiciousTitForTat opp my round rng =
      (if b2n (round = 0) ≠ 0 then (some Move.Defect, rng)
       else (some (if moveToU8 opp.getLast? = 0 then Move.Cooperate
         else Move.Defect), rng)) := by
    refine Eq.trans (show executeInner codeSuspiciousTitForTat opp my round rng =
        execLoop codeSuspiciousTitForTat opp my round 125 4
          [b2n (round = 0)] rng from rfl) ?_
    refine Eq.trans (execLoop_branch codeSuspiciousTitForTat opp my round 124 4
        [b2n (round = 0)] rng (b2n (round = 0) ≠ 0) 8 [] 6 [] rfl) ?_
    split
    · rfl
    · rfl
  show some (executeBytecode codeSuspiciousTitForTat opp my round rng) =
    executeStrategy (Strategy.new StrategyBase.SuspiciousTitForTat) opp my round rng
  rw [executeStrategy_default,
    show executeBytecode codeSuspiciousTitForTat opp my round rng =
      ((executeInner codeSuspiciousTitForTat opp my round rng).1.getD Move.Cooperate,
       (executeInner codeSuspiciousTitForTat opp my round rng).2) from rfl, hstep]
  by_cases h0 : round = 0
  · have hnil : opp = [] := List.eq_nil_of_length_eq_zero (h1.trans h0)
    subst hnil
    simp [b2n, h0, executeSuspiciousTitForTat]
  · rcases hl : opp.getLast? with _ | m
    · rw [List.getLast?_eq_none_iff] at hl
      rw [hl] at h1
      simp at h1
      omega
    · rcases m <;>
        simp [b2n, h0, hl, executeSuspiciousTitForTat, moveToU8,
          StrategyParams.default]

/-- The Random bytecode draws the same percent and plays like Random. -/
theorem agree_random :
    AgreeBelow 50 (PlayerStrategy.Custom codeRandom)
      (PlayerStrategy.Builtin (Strategy.new StrategyBase.Random)) := by
  intro opp my round rng _ _ _
  have hstep : executeInner codeRandom opp my round rng =
      (some (if b2n (b2n ((rng.nextPercent).1 < 50) = 0) = 0 then Move.Cooperate
        else Move.Defect), (rng.nextPercent).2) := rfl
  show some (executeBytecode codeRandom opp my round rng) =
    executeStrategy (Strategy.new StrategyBase.Random) opp my round rng
  rw [executeStrategy_default,
    show executeBytecode codeRandom opp my round rng =
      ((executeInner codeRandom opp my round rng).1.getD Move.Cooperate,
       (executeInner codeRandom opp my round rng).2) from rfl, hstep]
  rcases hnp : rng.nextPercent with ⟨p, rng'⟩
  by_cases hp : p < 50
  · simp [b2n, hnp, hp, executeRandom, StrategyParams.default]
  · simp [b2n, hnp, hp, executeRandom, StrategyParams.default]

/-- The TitForTwoTats bytecode plays like TitForTwoTats on
match-reachable states (history length equals the round number). -/
theorem agree_titForTwoTats :
    AgreeBelow 50 (PlayerStrategy.Custom codeTitForTwoTats)
      (PlayerStrategy.Builtin (Strategy.new StrategyBase.TitForTwoTats)) := by
  intro opp my round rng h1 _ _
  have hstep : executeInner codeTitForTwoTats opp my round rng =
      (if b2n (round < 2) ≠ 0 then (some Move.Cooperate, rng)
       else (some (if b2n (historyNAgo opp 0 ≠ 0 ∧ historyNAgo opp 1 ≠ 0) = 0
         then Move.Cooperate else Move.Defect), rng)) := by
    refine Eq.trans (show executeInner codeTitForTwoTats opp my round rng =
        execLoop codeTitForTwoTats opp my round 125 4
          [b2n (round < 2)] rng from rfl) ?_
    refine Eq.trans (execLoop_branch codeTitForTwoTats opp my round 124 4
        [b2n (round < 2)] rng (b2n (round < 2) ≠ 0) 14 [] 6 [] rfl) ?_
    split
    · rfl
    · rfl
  show some (executeBytecode codeTitForTwoTats opp my round rng) =
    executeStrategy (Strategy.new StrategyBase.TitForTwoTats) opp my round rng
  rw [executeStrategy_default,
    show executeBytecode codeTitForTwoTats opp my round rng =
      ((executeInner codeTitForTwoTats opp my round rng).1.getD Move.Cooperate,
       (executeInner codeTitForTwoTats opp my round rng).2) from rfl, hstep]
  by_cases hr : round < 2
  · have hol : opp.length < 2 := by omega
    simp [b2n, hr, executeTitForTwoTats, hol]
  · have hol2 : ¬ opp.length < 2 := by omega
    have hga : opp.length - 1 - 1 = opp.length - 2 := by omega
    have hgb : opp.length - 1 - 0 = opp.length - 1 := by omega
    have hg0 : ¬ 0 ≥ opp.length := by omega
    have hg1 : ¬ 1 ≥ opp.length := by omega
    rcases move_eq_or ((opp[opp.length - 1]?).getD Move.Cooperate) with hb | hb <;>
    rcases move_eq_or ((opp[opp.length - 2]?).getD Move.Cooperate) with ha | ha <;>
      simp [b2n, hr, executeTitForTwoTats, historyNAgo, hga, hgb, hg0, hg1,
        hb, ha, hol2]

/-- The Pavlov bytecode plays like Pavlov on match-reachable states
(both histories have length `round`), where Pavlov never panics. -/
theorem agree_pavlov :
    AgreeBelow 50 (PlayerStrategy.Custom codePavlov)
      (PlayerStrategy.Builtin (Strategy.new StrategyBase.Pavlov)) := by
  intro opp my round rng h1 h2 _
  have hstep : executeInner codePavlov opp my round rng =
      (if b2n (round = 0) ≠ 0 then (some Move.Cooperate, rng)
       else if b2n ((if my.length = 0 then 3
           else (payoff (my.getLast?.getD Move.Cooperate)
             (opp.getLast?.getD Move.Cooperate)).1) < 3) ≠ 0 then
         (some (if b2n (moveToU8 my.getLast? = 0) = 0 then Move.Cooperate
           else Move.Defect), rng)
       else (some (if moveToU8 my.getLast? = 0 then Move.Cooperate
         else Move.Defect), rng)) := by
    refine Eq.trans (show executeInner codePavlov opp my round rng =
        execLoop codePavlov opp my round 125 4 [b2n (round = 0)] rng from rfl) ?_
    refine Eq.trans (execLoop_branch codePavlov opp my round 124 4
        [b2n (round = 0)] rng (b2n (round = 0) ≠ 0) 17 [] 6 [] rfl) ?_
    split
    · rfl
    · refine Eq.trans (show execLoop codePavlov opp my round 124 6 [] rng =
          execLoop codePavlov opp my round 121 10
            [b2n ((if my.length = 0 then 3
              else (payoff (my.getLast?.getD Move.Cooperate)
                (opp.getLast?.getD Move.Cooperate)).1) < 3)] rng from rfl) ?_
      refine Eq.trans (execLoop_branch codePavlov opp my round 120 10
          [b2n ((if my.length = 0 then 3
            else (payoff (my.getLast?.getD Move.Cooperate)
              (opp.getLast?.getD Move.Cooperate)).1) < 3)] rng
          (b2n ((if my.length = 0 then 3
            else (payoff (my.getLast?.getD Move.Cooperate)
              (opp.getLast?.getD Move.Cooperate)).1) < 3) ≠ 0)
          14 [] 12 [] rfl) ?_
      split
      · rfl
      · rfl
  show some (executeBytecode codePavlov opp my round rng) =
    executeStrategy (Strategy.new StrategyBase.Pavlov) opp my round rng
  rw [executeStrategy_default,
    show executeBytecode codePavlov opp my round rng =
      ((executeInner codePavlov opp my round rng).1.getD Move.Cooperate,
       (executeInner codePavlov opp my round rng).2) from rfl, hstep]
  by_cases h0 : round = 0
  · have hnil : my = [] := List.eq_nil_of_length_eq_zero (h2.trans h0)
    subst hnil
    simp [b2n, h0, executePavlov]
  · rcases hml : my.getLast? with _ | mL
    · rw [List.getLast?_eq_none_iff] at hml
      rw [hml] at h2
      simp at h2
      omega
    · rcases hol : opp.getLast? with _ | oL
      · rw [List.getLast?_eq_none_iff] at hol
        rw [hol] at h1
        simp at h1
        omega
      · have hmlen : ¬ my.length = 0 := by omega
        by_cases hs : (payoff mL oL).1 < 3
        · have hs2 : ¬ (payoff mL oL).1 ≥ 3 := by omega
          cases mL <;>
            simp [b2n, h0, hml, hol, hmlen, hs, hs2, executePavlov, moveToU8]
        · have hs2 : (payoff mL oL).1 ≥ 3 := by omega
          cases mL <;>
            simp [b2n, h0, hml, hol, hmlen, hs, hs2, executePavlov, moveToU8]

/-- The Gradual bytecode plays like Gradual on match-reachable states:
below 50 rounds the saturating u8 arithmetic of the VM agrees with the
exact triangular-number comparison. -/
theorem agree_gradual :
    AgreeBelow 50 (PlayerStrategy.Custom codeGradual)
      (PlayerStrategy.Builtin (Strategy.new StrategyBase.Gradual)) := by
  intro opp my round rng h1 h2 h3
  have hstep : executeInner codeGradual opp my round rng =
      (some (if b2n (satMul (countDefects my) 2 <
          satMul (countDefects opp) (satAdd (countDefects opp) 1)) = 0
        then Move.Cooperate else Move.Defect), rng) := rfl
  show some (executeBytecode codeGradual opp my round rng) =
    executeStrategy (Strategy.new StrategyBase.Gradual) opp my round rng
  rw [executeStrategy_default,
    show executeBytecode codeGradual opp my round rng =
      ((executeInner codeGradual opp my round rng).1.getD Move.Cooperate,
       (executeInner codeGradual opp my round rng).2) from rfl, hstep]
  have hm : my.countP (· == Move.Defect) ≤ 49 := by
    have hlen : my.countP (· == Move.Defect) ≤ my.length :=
      List.countP_le_length _
    omega
  have ht : opp.countP (· == Move.Defect) ≤ 49 := by
    have hlen : opp.countP (· == Move.Defect) ≤ opp.length :=
      List.countP_le_length _
    omega
  obtain ⟨k, hk⟩ := Nat.even_mul_succ_self (opp.countP (· == Move.Defect))
  have e1 : countDefects opp = opp.countP (· == Move.Defect) := by
    unfold countDefects
    omega
  have e2 : countDefects my = my.countP (· == Move.Defect) := by
    unfold countDefects
    omega
  rw [e1, e2]
  have e3 : satAdd (opp.countP (· == Move.Defect)) 1 =
      opp.countP (· == Move.Defect) + 1 := by
    unfold satAdd
    omega
  have e4 : satMul (my.countP (· == Move.Defect)) 2 =
      my.countP (· == Move.Defect) * 2 := by
    unfold satMul
    omega
  rw [e3, e4]
  have e5 : satMul (opp.countP (· == Move.Defect))
      (opp.countP (· == Move.Defect) + 1) = min (k + k) 255 := by
    unfold satMul
    rw [hk]
  rw [e5]
  by_cases hc : my.countP (· == Move.Defect) * 2 < min (k + k) 255
  · have hc2 : my.countP (· == Move.Defect) <
        opp.countP (· == Move.Defect) * (opp.countP (· == Move.Defect) + 1) / 2 := by
      rw [hk]
      omega
    simp [executeGradual, b2n, hc, hc2]
  · have hc2 : ¬ my.countP (· == Move.Defect) <
        opp.countP (· == Move.Defect) * (opp.countP (· == Move.Defect) + 1) / 2 := by
      rw [hk]
      omega
    simp [executeGradual, b2n, hc, hc2]

/-- C2: every one of the nine built-in strategies has a bytecode program of
at most 64 bytes that passes validation and whose Custom player, substituted
for the Builtin player on either side of a match, produces the identical
match result — identical moves, round scores and totals — for every seed,
match index, participant count and opponent strategy. -/
theorem C2_parity (base : StrategyBase) :
    (codeFor base).length ≤ 64 ∧
    validateBytecode (codeFor base) = Except.ok () ∧
    ∀ (other : PlayerStrategy) (seed : List Nat) (matchIndex participantCount : Nat),
      runMatch (PlayerStrategy.Custom (codeFor base)) other seed
          matchIndex participantCount =
        runMatch (PlayerStrategy.Builtin (Strategy.new base)) other seed
          matchIndex participantCount ∧
      runMatch other (PlayerStrategy.Custom (codeFor base)) seed
          matchIndex participantCount =
        runMatch other (PlayerStrategy.Builtin (Strategy.new base)) seed
          matchIndex participantCount := by
  have hag : AgreeBelow 50 (PlayerStrategy.Custom (codeFor base))
      (PlayerStrategy.Builtin (Strategy.new base)) := by
    cases base
    · exact agree_titForTat
    · exact agree_alwaysDefect
    · exact agree_alwaysCooperate
    · exact agree_grimTrigger
    · exact agree_pavlov
    · exact agree_suspiciousTitForTat
    · exact agree_random
    · exact agree_titForTwoTats
    · exact agree_gradual
  refine ⟨?_, ?_, ?_⟩
  · cases base <;> decide
  · cases base <;> rfl
  · intro other seed matchIndex participantCount
    exact ⟨runMatch_congr hag (agreeBelow_refl 50 other) seed
        matchIndex participantCount,
      runMatch_congr (agreeBelow_refl 50 other) hag seed
        matchIndex participantCount⟩

/-! ## The Feistel permutation is a bijection (C5) -/

/-- Each Feistel round keeps both halves below `half`. -/
theorem feistelMix_mem (h : Nat) (h0 : 0 < h) :
    ∀ (keys : List Nat) (i l r : Nat), l < h → r < h →
      (feistelMix h keys i (l, r)).1 < h ∧ (feistelMix h keys i (l, r)).2 < h := by
  intro keys
  induction keys with
  | nil =>
    intro i l r hl hr
    exact ⟨hl, hr⟩
  | cons key rest ih =>
    intro i l r hl hr
    by_cases hi : i % 2 = 0
    · rw [show feistelMix h (key :: rest) i (l, r) =
          feistelMix h rest (i + 1) (l, (r + feistelRoundFn l key h) % h) from by
        simp [feistelMix, hi]]
      exact ih (i + 1) l _ hl (Nat.mod_lt _ h0)
    · rw [show feistelMix h (key :: rest) i (l, r) =
          feistelMix h rest (i + 1) ((l + feistelRoundFn r key h) % h, r) from by
        simp [feistelMix, hi]]
      exact ih (i + 1) _ r (Nat.mod_lt _ h0) hr

/-- The Feistel rounds are injective on pairs below `half`: each round
modifies one half by adding a function of the other half mod `half`,
which cancels. -/
theorem feistelMix_inj (h : Nat) (h0 : 0 < h) :
    ∀ (keys : List Nat) (i l₁ r₁ l₂ r₂ : Nat),
      l₁ < h → r₁ < h → l₂ < h → r₂ < h →
      feistelMix h keys i (l₁, r₁) = feistelMix h keys i (l₂, r₂) →
      l₁ = l₂ ∧ r₁ = r₂ := by
  intro keys
  induction keys with
  | nil =>
    intro i l₁ r₁ l₂ r₂ _ _ _ _ heq
    simp [feistelMix, Prod.ext_iff] at heq
    exact heq
  | cons key rest ih =>
    intro i l₁ r₁ l₂ r₂ hl1 hr1 hl2 hr2 heq
    by_cases hi : i % 2 = 0
    · rw [show feistelMix h (key :: rest) i (l₁, r₁) =
          feistelMix h rest (i + 1) (l₁, (r₁ + feistelRoundFn l₁ key h) % h) from by
          simp [feistelMix, hi],
        show feistelMix h (key :: rest) i (l₂, r₂) =
          feistelMix h rest (i + 1) (l₂, (r₂ + feistelRoundFn l₂ key h) % h) from by
          simp [feistelMix, hi]] at heq
      obtain ⟨e1, e2⟩ := ih (i + 1) _ _ _ _ hl1 (Nat.mod_lt _ h0) hl2
        (Nat.mod_lt _ h0) heq
      subst e1
      refine ⟨rfl, ?_⟩
      have e2' : Nat.ModEq h (r₁ + feistelRoundFn l₁ key h)
          (r₂ + feistelRoundFn l₁ key h) := e2
      have hmod : r₁ % h = r₂ % h := Nat.ModEq.add_right_cancel' _ e2'
      rw [Nat.mod_eq_of_lt hr1, Nat.mod_eq_of_lt hr2] at hmod
      exact hmod
    · rw [show feistelMix h (key :: rest) i (l₁, r₁) =
          feistelMix h rest (i + 1) ((l₁ + feistelRoundFn r₁ key h) % h, r₁) from by
          simp [feistelMix, hi],
        show feistelMix h (key :: rest) i (l₂, r₂) =
          feistelMix h rest (i + 1) ((l₂ + feistelRoundFn r₂ key h) % h, r₂) from by
          simp [feistelMix, hi]] at heq
      obtain ⟨e1, e2⟩ := ih (i + 1) _ _ _ _ (Nat.mod_lt _ h0) hr1
        (Nat.mod_lt _ h0) hr2 heq
      subst e2
      refine ⟨?_, rfl⟩
      have e1' : Nat.ModEq h (l₁ + feistelRoundFn r₁ key h)
          (l₂ + feistelRoundFn r₁ key h) := e1
      have hmod : l₁ % h = l₂ % h := Nat.ModEq.add_right_cancel' _ e1'
      rw [Nat.mod_eq_of_lt hl1, Nat.mod_eq_of_lt hl2] at hmod
      exact hmod

/-- One full pass of the Feistel network stays inside `[0, half²)`. -/
theorem feistelPass_mem (keys : List Nat) (h val : Nat) (h0 : 0 < h)
    (hv : val < h * h) : feistelPass keys h val < h * h := by
  have hl : val / h < h := (Nat.div_lt_iff_lt_mul h0).mpr hv
  have hr : val % h < h := Nat.mod_lt _ h0
  obtain ⟨m1, m2⟩ := feistelMix_mem h h0 keys 0 (val / h) (val % h) hl hr
  show (feistelMix h keys 0 (val / h, val % h)).1 * h +
    (feistelMix h keys 0 (val / h, val % h)).2 < h * h
  calc (feistelMix h keys 0 (val / h, val % h)).1 * h +
        (feistelMix h keys 0 (val / h, val % h)).2
      < ((feistelMix h keys 0 (val / h, val % h)).1 + 1) * h := by
        rw [Nat.add_mul, Nat.one_mul]
        omega
    _ ≤ h * h := Nat.mul_le_mul_right h m1

/-- One full pass of the Feistel network is injective on `[0, half²)`. -/
theorem feistelPass_inj (keys : List Nat) (h v₁ v₂ : Nat) (h0 : 0 < h)
    (h1 : v₁ < h * h) (h2 : v₂ < h * h)
    (heq : feistelPass keys h v₁ = feistelPass keys h v₂) : v₁ = v₂ := by
  have q1 : v₁ / h < h := (Nat.div_lt_iff_lt_mul h0).mpr h1
  have q2 : v₂ / h < h := (Nat.div_lt_iff_lt_mul h0).mpr h2
  have m1 := feistelMix_mem h h0 keys 0 (v₁ / h) (v₁ % h) q1 (Nat.mod_lt _ h0)
  have m2 := feistelMix_mem h h0 keys 0 (v₂ / h) (v₂ % h) q2 (Nat.mod_lt _ h0)
  have heq' : (feistelMix h keys 0 (v₁ / h, v₁ % h)).1 * h +
      (feistelMix h keys 0 (v₁ / h, v₁ % h)).2 =
      (feistelMix h keys 0 (v₂ / h, v₂ % h)).1 * h +
      (feistelMix h keys 0 (v₂ / h, v₂ % h)).2 := heq
  have hb : (feistelMix h keys 0 (v₁ / h, v₁ % h)).2 =
      (feistelMix h keys 0 (v₂ / h, v₂ % h)).2 := by
    have hc := congrArg (· % h) heq'
    dsimp only at hc
    rw [Nat.mul_add_mod_of_lt m1.2, Nat.mul_add_mod_of_lt m2.2] at hc
    exact hc
  have ha : (feistelMix h keys 0 (v₁ / h, v₁ % h)).1 =
      (feistelMix h keys 0 (v₂ / h, v₂ % h)).1 := by
    have hmul : (feistelMix h keys 0 (v₁ / h, v₁ % h)).1 * h =
        (feistelMix h keys 0 (v₂ / h, v₂ % h)).1 * h := by omega
    exact Nat.eq_of_mul_eq_mul_right h0 hmul
  have hpair : feistelMix h keys 0 (v₁ / h, v₁ % h) =
      feistelMix h keys 0 (v₂ / h, v₂ % h) := by
    rw [Prod.ext_iff]
    exact ⟨ha, hb⟩
  obtain ⟨ed, em⟩ := feistelMix_inj h h0 keys 0 _ _ _ _ q1 (Nat.mod_lt _ h0)
    q2 (Nat.mod_lt _ h0) hpair
  calc v₁ = h * (v₁ / h) + v₁ % h := (Nat.div_add_mod v₁ h).symm
    _ = h * (v₂ / h) + v₂ % h := by rw [ed, em]
    _ = v₂ := Nat.div_add_mod v₂ h

/-- Iterates of a self-map of `[0, N)` stay in `[0, N)`. -/
theorem iterLt (g : Nat → Nat) (N : Nat) (hg : ∀ x, x < N → g x < N) :
    ∀ (j x : Nat), x < N → g^[j] x < N := by
  intro j
  induction j with
  | zero =>
    intro x hx
    simpa using hx
  | succ n ih =>
    intro x hx
    rw [Function.iterate_succ_apply']
    exact hg _ (ih x hx)

/-- Iterates of an injective self-map of `[0, N)` cancel. -/
theorem iterCancel (g : Nat → Nat) (N : Nat) (hg : ∀ x, x < N → g x < N)
    (hinj : ∀ x y, x < N → y < N → g x = g y → x = y) :
    ∀ (a x y : Nat), x < N → y < N → g^[a] x = g^[a] y → x = y := by
  intro a
  induction a with
  | zero =>
    intro x y _ _ he
    simpa using he
  | succ n ih =>
    intro x y hx hy he
    rw [Function.iterate_succ_apply', Function.iterate_succ_apply'] at he
    exact ih x y hx hy (hinj _ _ (iterLt g N hg n x hx) (iterLt g N hg n y hy) he)

/-- A successful cycle walk returns the first iterate inside the domain. -/
theorem cycleWalk_inv (g : Nat → Nat) (d : Nat) :
    ∀ (fuel val v : Nat), cycleWalk g d fuel val = some v →
      ∃ j, v = g^[j + 1] val ∧ v < d ∧ ∀ m, m < j → ¬ g^[m + 1] val < d := by
  intro fuel
  induction fuel with
  | zero =>
    intro val v he
    simp [cycleWalk] at he
  | succ n ih =>
    intro val v he
    rw [show cycleWalk g d (n + 1) val =
        (if g val < d then some (g val) else cycleWalk g d n (g val)) from rfl] at he
    by_cases hv : g val < d
    · rw [if_pos hv] at he
      have hv' : v = g val := (Option.some.inj he).symm
      refine ⟨0, by simpa using hv', hv' ▸ hv, ?_⟩
      intro m hm
      exact absurd hm (Nat.not_lt_zero m)
    · rw [if_neg hv] at he
      obtain ⟨j, e, hlt, hmin⟩ := ih (g val) v he
      refine ⟨j + 1, ?_, hlt, ?_⟩
      · have hit : g^[j + 1 + 1] val = g^[j + 1] (g val) :=
          Function.iterate_succ_apply g (j + 1) val
        rw [hit]
        exact e
      · intro m hm
        cases m with
        | zero => simpa using hv
        | succ m' =>
          have hmm := hmin m' (by omega)
          rw [Function.iterate_succ_apply g (m' + 1) val]
          exact hmm

/-- With enough fuel, the cycle walk succeeds at the first in-domain
iterate. -/
theorem cycleWalk_some (g : Nat → Nat) (d : Nat) :
    ∀ (fuel j val : Nat), j < fuel → (∀ m, m < j → ¬ g^[m + 1] val < d) →
      g^[j + 1] val < d → cycleWalk g d fuel val = some (g^[j + 1] val) := by
  intro fuel
  induction fuel with
  | zero =>
    intro j val hj _ _
    exact absurd hj (Nat.not_lt_zero j)
  | succ n ih =>
    intro j val hj hmin hlt
    rw [show cycleWalk g d (n + 1) val =
        (if g val < d then some (g val) else cycleWalk g d n (g val)) from rfl]
    by_cases hv : g val < d
    · rw [if_pos hv]
      cases j with
      | zero => simp
      | succ j' => exact absurd hv (hmin 0 (by omega))
    · rw [if_neg hv]
      cases j with
      | zero => exact absurd hlt hv
      | succ j' =>
        have hmin' : ∀ m, m < j' → ¬ g^[m + 1] (g val) < d := by
          intro m hm
          have hmm := hmin (m + 1) (by omega)
          rw [Function.iterate_succ_apply g (m + 1) val] at hmm
          exact hmm
        have hlt' : g^[j' + 1] (g val) < d := by
          rw [← Function.iterate_succ_apply g (j' + 1) val]
          exact hlt
        rw [ih j' (g val) (by omega) hmin' hlt']
        rw [← Function.iterate_succ_apply g (j' + 1) val]

/-- Pigeonhole: an injective self-map of `[0, N)` started inside
`[0, d)` revisits `[0, d)` within `N - d` out-of-domain steps. -/
theorem walk_hits (g : Nat → Nat) (N d : Nat) (hdN : d ≤ N)
    (hg : ∀ x, x < N → g x < N)
    (hinj : ∀ x y, x < N → y < N → g x = g y → x = y)
    (x : Nat) (hx : x < d) :
    ∃ j, j ≤ N - d ∧ g^[j + 1] x < d ∧ ∀ m, m < j → ¬ g^[m + 1] x < d := by
  have hex : ∃ j, j ≤ N - d ∧ g^[j + 1] x < d := by
    by_contra hc
    push_neg at hc
    have key : ∀ a b : Nat, a < b → b ≤ N - d → g^[a + 1] x = g^[b + 1] x → False := by
      intro a b hab hble he
      have hrw : b + 1 = (a + 1) + (b - a) := by omega
      rw [hrw] at he
      rw [Function.iterate_add_apply g (a + 1) (b - a) x] at he
      have hxN : x < N := by omega
      have hiter : g^[b - a] x < N := iterLt g N hg (b - a) x hxN
      have hxe : x = g^[b - a] x :=
        iterCancel g N hg hinj (a + 1) x (g^[b - a] x) hxN hiter he
      have hba : b - a = (b - a - 1) + 1 := by omega
      rw [hba] at hxe
      have hge := hc (b - a - 1) (by omega)
      omega
    have hmaps : ∀ a ∈ Finset.range (N - d + 1), g^[a + 1] x ∈ Finset.Ico d N := by
      intro a ha
      rw [Finset.mem_range] at ha
      rw [Finset.mem_Ico]
      exact ⟨hc a (by omega), iterLt g N hg (a + 1) x (by omega)⟩
    have hcard : (Finset.Ico d N).card < (Finset.range (N - d + 1)).card := by
      rw [Nat.card_Ico, Finset.card_range]
      omega
    obtain ⟨i, hi, j, hj, hne, hfe⟩ :=
      Finset.exists_ne_map_eq_of_card_lt_of_maps_to hcard hmaps
    rw [Finset.mem_range] at hi hj
    rcases Nat.lt_or_ge i j with hij | hij
    · exact key i j hij (by omega) hfe
    · have hji : j < i := by omega
      exact key j i hji (by omega) hfe.symm
  obtain ⟨j0, hj0le, hj0lt⟩ := hex
  have hex' : ∃ j, g^[j + 1] x < d := ⟨j0, hj0lt⟩
  refine ⟨Nat.find hex', ?_, Nat.find_spec hex', ?_⟩
  · exact le_trans (Nat.find_min' hex' hj0lt) hj0le
  · intro m hm
    exact Nat.find_min hex' hm

/-- The cycle-walked Feistel network is a bijection on `[0, d)` whenever
the ceiling square root is `h` and at most 999 values of `[0, h²)` lie
outside the domain. -/
theorem feistel_bij_general (keys : List Nat) (d h : Nat)
    (hh : isqrtCeil d = some h) (hd2 : 2 ≤ d) (h0 : 0 < h)
    (hdh : d ≤ h * h) (hfuel : h * h - d < 1000) :
    (∀ i, i < d → ∃ v, v < d ∧ feistelPermute i d keys = some (some v)) ∧
    (∀ i₁ i₂ v, i₁ < d → i₂ < d →
      feistelPermute i₁ d keys = some (some v) →
      feistelPermute i₂ d keys = some (some v) → i₁ = i₂) := by
  have hperm : ∀ i, feistelPermute i d keys =
      some (cycleWalk (feistelPass keys h) d 1000 i) := by
    intro i
    unfold feistelPermute
    rw [if_neg (by omega), hh]
  set N := h * h with hN
  set g := feistelPass keys h with hgdef
  have hg : ∀ x, x < N → g x < N := fun x hx => feistelPass_mem keys h x h0 hx
  have hinj : ∀ x y, x < N → y < N → g x = g y → x = y :=
    fun x y hx hy he => feistelPass_inj keys h x y h0 hx hy he
  constructor
  · intro i hi
    obtain ⟨j, hjle, hjlt, hjmin⟩ := walk_hits g N d hdh hg hinj i hi
    refine ⟨g^[j + 1] i, hjlt, ?_⟩
    rw [hperm i, cycleWalk_some g d 1000 j i (by omega) hjmin hjlt]
  · intro i₁ i₂ v h1 h2 he1 he2
    rw [hperm i₁] at he1
    rw [hperm i₂] at he2
    obtain ⟨j₁, e1, hv1, m1⟩ := cycleWalk_inv g d 1000 i₁ v (Option.some.inj he1)
    obtain ⟨j₂, e2, hv2, m2⟩ := cycleWalk_inv g d 1000 i₂ v (Option.some.inj he2)
    have key : ∀ (jA jB iA iB : Nat), jA ≤ jB → iA < d → iB < d →
        v = g^[jA + 1] iA → v = g^[jB + 1] iB →
        (∀ m, m < jB → ¬ g^[m + 1] iB < d) → iA = iB := by
      intro jA jB iA iB hle hA hB eA eB hmin
      have he : g^[jA + 1] iA = g^[jB + 1] iB := by rw [← eA, ← eB]
      have hrw : jB + 1 = (jA + 1) + (jB - jA) := by omega
      rw [hrw] at he
      rw [Function.iterate_add_apply g (jA + 1) (jB - jA) iB] at he
      have hAN : iA < N := by omega
      have hBN : g^[jB - jA] iB < N := iterLt g N hg _ iB (by omega)
      have hcan : iA = g^[jB - jA] iB :=
        iterCancel g N hg hinj (jA + 1) _ _ hAN hBN he
      rcases Nat.eq_zero_or_pos (jB - jA) with hz | hpos
      · rw [hz] at hcan
        simpa using hcan
      · have hm := hmin (jB - jA - 1) (by omega)
        rw [show jB - jA - 1 + 1 = jB - jA from by omega] at hm
        rw [← hcan] at hm
        exact absurd hA hm
    rcases Nat.le_total j₁ j₂ with hle | hle
    · exact key j₁ j₂ i₁ i₂ hle h1 h2 e1 e2 m2
    · exact (key j₂ j₁ i₂ i₁ hle h2 h1 e2 e1 m1).symm

/-- C5: for every seed and each of the nine tournament domain sizes,
`feistel_permute` with the derived keys is a bijection on `[0, domain)`:
every input below the domain yields `Some v` with `v` below the domain,
and distinct inputs yield distinct outputs. -/
theorem C5_feistel_bijection (seed : List Nat) (d : Nat)
    (hd : d = 1 ∨ d = 2 ∨ d = 3 ∨ d = 5 ∨ d = 10 ∨ d = 50 ∨ d = 100 ∨
      d = 250 ∨ d = 1000) :
    (∀ i, i < d →
      ∃ v, v < d ∧ feistelPermute i d (deriveFeistelKeys seed) = some (some v)) ∧
    (∀ i₁ i₂ v, i₁ < d → i₂ < d →
      feistelPermute i₁ d (deriveFeistelKeys seed) = some (some v) →
      feistelPermute i₂ d (deriveFeistelKeys seed) = some (some v) →
      i₁ = i₂) := by
  rcases hd with rfl | rfl | rfl | rfl | rfl | rfl | rfl | rfl | rfl
  · constructor
    · intro i hi
      have hi0 : i = 0 := by omega
      subst hi0
      exact ⟨0, by omega, rfl⟩
    · intro i₁ i₂ v h1 h2 _ _
      omega
  · exact feistel_bij_general _ 2 2 rfl (by omega) (by omega) (by omega) (by omega)
  · exact feistel_bij_general _ 3 2 rfl (by omega) (by omega) (by omega) (by omega)
  · exact feistel_bij_general _ 5 3 rfl (by omega) (by omega) (by omega) (by omega)
  · exact feistel_bij_general _ 10 4 rfl (by omega) (by omega) (by omega) (by omega)
  · exact feistel_bij_general _ 50 8 rfl (by omega) (by omega) (by omega) (by omega)
  · exact feistel_bij_general _ 100 10 rfl (by omega) (by omega) (by omega) (by omega)
  · exact feistel_bij_general _ 250 16 rfl (by omega) (by omega) (by omega) (by omega)
  · exact feistel_bij_general _ 1000 32 rfl (by omega) (by omega) (by omega) (by omega)

/-- Instantiation of the C5 bijection at seed `[7]` and domain 10: input 3
has an image below 10. -/
theorem C5_feistel_bijection_witness :
    ∃ v, v < 10 ∧ feistelPermute 3 10 (deriveFeistelKeys [7]) = some (some v) :=
  (C5_feistel_bijection [7] 10 (by omega)).1 3 (by omega)

/-! ## The offset selection of the circular regime (C6) -/

/-- `next_range` returns a value below a positive bound. -/
theorem nextRange_lt (r : SeededRng) (m : Nat) (hm : 0 < m) :
    (r.nextRange m).1 < m := by
  have he : r.nextRange m =
      if m = 0 then (0, r) else ((r.nextU32).1 % m, (r.nextU32).2) := rfl
  rw [he, if_neg (by omega)]
  exact Nat.mod_lt _ hm

/-- Floyd's sampling loop: starting from a distinct, bounded prefix and a
strictly increasing candidate list dominating it, the loop adds exactly
one fresh in-range element per candidate. -/
theorem floydGo_spec (B : Nat) :
    ∀ (js : List Nat) (rng : SeededRng) (acc : List Nat),
      acc.Nodup → (∀ x ∈ acc, 1 ≤ x ∧ x ≤ B) →
      (∀ x ∈ acc, ∀ j ∈ js, x < j) →
      js.Pairwise (· < ·) →
      (∀ j ∈ js, 1 ≤ j ∧ j ≤ B) →
      (floydGo rng acc js).Nodup ∧
      (floydGo rng acc js).length = acc.length + js.length ∧
      (∀ x ∈ floydGo rng acc js, 1 ≤ x ∧ x ≤ B) := by
  intro js
  induction js with
  | nil =>
    intro rng acc h1 h2 _ _ _
    refine ⟨h1, by simp [floydGo], ?_⟩
    intro x hx
    rw [show floydGo rng acc [] = acc from rfl] at hx
    exact h2 x hx
  | cons j rest ih =>
    intro rng acc h1 h2 hlt hpw hjs
    rw [List.pairwise_cons] at hpw
    have hj := hjs j (by simp)
    set t := (rng.nextRange j).1 + 1 with hT
    set v := (if t ∈ acc then j else t) with hV
    have hstep : floydGo rng acc (j :: rest) =
        floydGo (rng.nextRange j).2 (acc ++ [v]) rest := rfl
    have htj : t ≤ j := by
      have := nextRange_lt rng j (by omega)
      omega
    have hvb : 1 ≤ v ∧ v ≤ B := by
      rw [hV]
      split
      · exact hj
      · constructor
        · omega
        · omega
    have hvnotin : v ∉ acc := by
      by_cases hmem : t ∈ acc
      · rw [hV, if_pos hmem]
        intro hj2
        have := hlt j hj2 j (by simp)
        omega
      · rw [hV, if_neg hmem]
        exact hmem
    rw [hstep]
    obtain ⟨r1, r2, r3⟩ := ih (rng.nextRange j).2 (acc ++ [v])
      (by
        rw [List.nodup_append]
        refine ⟨h1, by simp, ?_⟩
        intro a ha hav
        rw [List.mem_singleton] at hav
        exact hvnotin (hav ▸ ha))
      (by
        intro x hx
        rw [List.mem_append] at hx
        rcases hx with hx | hx
        · exact h2 x hx
        · rw [List.mem_singleton] at hx
          exact hx ▸ hvb)
      (by
        intro x hx j' hj'
        rw [List.mem_append] at hx
        rcases hx with hx | hx
        · exact hlt x hx j' (by simp [hj'])
        · rw [List.mem_singleton] at hx
          have hjj' : j < j' := hpw.1 j' hj'
          have hvle : x ≤ j := by
            rw [hx, hV]
            split
            · omega
            · exact htj
          omega)
      hpw.2
      (fun j' hj' => hjs j' (by simp [hj']))
    refine ⟨r1, ?_, r3⟩
    rw [r2]
    simp only [List.length_append, List.length_singleton, List.length_cons,
      List.length_nil]
    omega

/-- `select_offsets` returns exactly `min(⌈k/2⌉, available, 50)` distinct
offsets, each in `[1, available]`. -/
theorem selectOffsets_spec (n k : Nat) (seed : List Nat) :
    (selectOffsets n k seed).length =
      min (min (divCeil k 2) (if n % 2 = 0 then n / 2 - 1 else n / 2)) 50 ∧
    (selectOffsets n k seed).Nodup ∧
    ∀ x ∈ selectOffsets n k seed,
      1 ≤ x ∧ x ≤ (if n % 2 = 0 then n / 2 - 1 else n / 2) := by
  set A := if n % 2 = 0 then n / 2 - 1 else n / 2 with hA
  set m := min (min (divCeil k 2) A) 50 with hm
  have hmA : m ≤ A := by omega
  have hsel : selectOffsets n k seed =
      (floydGo (SeededRng.new seed 0) [] (List.range' (A - m + 1) m)).insertionSort
        (· ≤ ·) := rfl
  obtain ⟨hnd, hlen, hmem⟩ := floydGo_spec A (List.range' (A - m + 1) m)
      (SeededRng.new seed 0) [] (by simp) (by simp) (by simp)
      (List.pairwise_lt_range' _ _)
      (by
        intro j hj
        rw [List.mem_range'_1] at hj
        omega)
  refine ⟨?_, ?_, ?_⟩
  · rw [hsel, (List.perm_insertionSort (· ≤ ·) _).length_eq, hlen,
      List.length_range']
    simp
  · rw [hsel]
    exact ((List.perm_insertionSort (· ≤ ·) _).nodup_iff).mpr hnd
  · intro x hx
    rw [hsel] at hx
    rw [(List.perm_insertionSort (· ≤ ·) _).mem_iff] at hx
    exact hmem x hx

/-- C6 counterexample: with 200 players and 101 matches per player the
circular regime applies and `⌈k/2⌉ = 51 ≤ available = 99`, yet
`select_offsets` returns only 50 offsets — its extra `.min(50)` cap is
absent from the claim. -/
theorem C6_counterexample :
    (selectOffsets 200 101 [0]).length = 50 ∧ divCeil 101 2 = 51 ∧
    ¬ (selectOffsets 200 101 [0]).length = divCeil 101 2 := by
  refine ⟨rfl, rfl, ?_⟩
  intro h
  rw [show (selectOffsets 200 101 [0]).length = 50 from rfl] at h
  rw [show divCeil 101 2 = 51 from rfl] at h
  omega

/-- The collection loop keeps exactly the mapped value of every index
when the per-index closure always succeeds. -/
theorem buildPairs_eq_map (f : Nat → Option (Option (Nat × Nat)))
    (g : Nat → Nat × Nat) :
    ∀ l : List Nat, (∀ i ∈ l, f i = some (some (g i))) →
      buildPairs f l = some (l.map g) := by
  intro l
  induction l with
  | nil =>
    intro _
    rfl
  | cons i rest ih =>
    intro h
    rw [show buildPairs f (i :: rest) = (match f i with
        | none => none
        | some none => buildPairs f rest
        | some (some p) => (buildPairs f rest).map (p :: ·)) from rfl]
    rw [h i (by simp), ih (fun x hx => h x (by simp [hx]))]
    rfl

/-- Counting a disjunction of two predicates that never hold together
splits into a sum. -/
theorem countP_or_disjoint {α : Type} (p r : α → Bool) :
    ∀ l : List α, (∀ x ∈ l, ¬(p x = true ∧ r x = true)) →
      l.countP (fun x => p x || r x) = l.countP p + l.countP r := by
  intro l
  induction l with
  | nil =>
    intro _
    rfl
  | cons a rest ih =>
    intro h
    rw [List.countP_cons, List.countP_cons, List.countP_cons,
      ih (fun x hx => h x (by simp [hx]))]
    have ha := h a (by simp)
    cases hpa : p a <;> cases hra : r a
    · simp [hpa, hra]
    · simp [hpa, hra] <;> omega
    · simp [hpa, hra] <;> omega
    · exact absurd ⟨hpa, hra⟩ ha

/-- For an offset `d ∈ [1, 9]`, player `q < 20` occurs in exactly two of
the twenty circular pairs `{i, (i+d) mod 20}`. -/
theorem count_block (d q : Nat) (hd1 : 1 ≤ d) (hd9 : d ≤ 9) (hq : q < 20) :
    (List.range 20).countP (fun i => i == q || (i + d) % 20 == q) = 2 := by
  rw [countP_or_disjoint (fun i => i == q) (fun i => (i + d) % 20 == q) _
      (by
        intro x hx hc
        rw [List.mem_range] at hx
        obtain ⟨h1, h2⟩ := hc
        rw [beq_iff_eq] at h1 h2
        omega)]
  have c1 : (List.range 20).countP (fun i => i == q) = 1 := by
    rw [show (List.range 20).countP (fun i => i == q) =
        (List.range 20).count q from rfl]
    exact List.count_eq_one_of_mem (List.nodup_range 20)
      (by rw [List.mem_range]; omega)
  have c2 : (List.range 20).countP (fun i => (i + d) % 20 == q) = 1 := by
    have he : (List.range 20).countP (fun i => (i + d) % 20 == q) =
        (List.range 20).countP (fun i => i == (q + 20 - d) % 20) :=
      List.countP_congr (by
        intro x hx
        rw [List.mem_range] at hx
        rw [beq_iff_eq, beq_iff_eq]
        omega)
    rw [he, show (List.range 20).countP (fun i => i == (q + 20 - d) % 20) =
        (List.range 20).count ((q + 20 - d) % 20) from rfl]
    exact List.count_eq_one_of_mem (List.nodup_range 20)
      (by rw [List.mem_range]; omega)
  rw [c1, c2]

/-- The circular pairing for 20 players, 8 matches each: for any four
distinct offsets in `[1, 9]`, the 80 generated pairs have no self-pair,
no duplicate, and every player in exactly 8 of them. -/
theorem circular_pairs_20_8 (keys : List Nat) (offs : List Nat)
    (hlen : offs.length = 4) (hnd : offs.Nodup)
    (hmem : ∀ x ∈ offs, 1 ≤ x ∧ x ≤ 9) :
    ∃ ps, buildPairs (fun i =>
        match feistelPermute i 80 keys with
        | none => none
        | some none => some none
        | some (some c) =>
          match canonicalToPairCircular c 20 offs with
          | none => none
          | some p => some (some p)) (List.range 80) = some ps ∧
      ps.length = 80 ∧ (∀ p ∈ ps, p.1 ≠ p.2) ∧ ps.Nodup ∧
      (∀ q, q < 20 → ps.countP (fun p => p.1 == q || p.2 == q) = 8) ∧
      (∀ i, i < 80 → ∃ c p, feistelPermute i 80 keys = some (some c) ∧
        canonicalToPairCircular c 20 offs = some p ∧ ps.get? i = some p) := by
  obtain ⟨hsucc, hinj⟩ := feistel_bij_general keys 80 9 rfl
    (by omega) (by omega) (by omega) (by omega)
  obtain ⟨g, hg⟩ : ∃ g : Nat → Nat, ∀ i, i < 80 →
      g i < 80 ∧ feistelPermute i 80 keys = some (some (g i)) := by
    refine ⟨fun i => ((feistelPermute i 80 keys).getD (some 0)).getD 0, ?_⟩
    intro i hi
    dsimp only
    obtain ⟨v, hv, he⟩ := hsucc i hi
    rw [he]
    exact ⟨hv, rfl⟩
  obtain ⟨pf, hpf⟩ : ∃ pf : Nat → Nat × Nat, ∀ c, c < 80 →
      canonicalToPairCircular c 20 offs = some (pf c) ∧
      pf c = (if c % 20 < (c % 20 + offs.getD (c / 20) 0) % 20
        then (c % 20, (c % 20 + offs.getD (c / 20) 0) % 20)
        else ((c % 20 + offs.getD (c / 20) 0) % 20, c % 20)) := by
    refine ⟨fun c => (canonicalToPairCircular c 20 offs).getD (0, 0), ?_⟩
    intro c hc
    have hcg : c / 20 < offs.length := by rw [hlen]; omega
    have hdg : offs.getD (c / 20) 0 = offs.get ⟨c / 20, hcg⟩ := by
      rw [List.getD_eq_get?, List.get?_eq_get hcg]
      rfl
    have hget : offs.get? (c / 20) = some (offs.getD (c / 20) 0) := by
      rw [List.get?_eq_get hcg, hdg]
    have hstep : canonicalToPairCircular c 20 offs =
        match offs.get? (c / 20) with
        | none => none
        | some d => some (if c % 20 < (c % 20 + d) % 20
            then (c % 20, (c % 20 + d) % 20)
            else ((c % 20 + d) % 20, c % 20)) := rfl
    dsimp only
    rw [hstep, hget]
    exact ⟨rfl, rfl⟩
  have hdmem : ∀ c, c < 80 → 1 ≤ offs.getD (c / 20) 0 ∧ offs.getD (c / 20) 0 ≤ 9 := by
    intro c hc
    have hcg : c / 20 < offs.length := by rw [hlen]; omega
    have hdg : offs.getD (c / 20) 0 = offs.get ⟨c / 20, hcg⟩ := by
      rw [List.getD_eq_get?, List.get?_eq_get hcg]
      rfl
    exact hmem _ (hdg ▸ List.get_mem offs (c / 20) hcg)
  have pf_inj : ∀ c c', c < 80 → c' < 80 → pf c = pf c' → c = c' := by
    intro c c' hc hc' he
    have h1 := (hpf c hc).2
    have h2 := (hpf c' hc').2
    obtain ⟨ha1, ha9⟩ := hdmem c hc
    obtain ⟨hb1, hb9⟩ := hdmem c' hc'
    rw [h1, h2] at he
    have hdd : offs.getD (c / 20) 0 = offs.getD (c' / 20) 0 ∧
        c % 20 = c' % 20 := by
      by_cases b1 : c % 20 < (c % 20 + offs.getD (c / 20) 0) % 20 <;>
      by_cases b2 : c' % 20 < (c' % 20 + offs.getD (c' / 20) 0) % 20
      · rw [if_pos b1, if_pos b2, Prod.mk.injEq] at he
        omega
      · rw [if_pos b1, if_neg b2, Prod.mk.injEq] at he
        omega
      · rw [if_neg b1, if_pos b2, Prod.mk.injEq] at he
        omega
      · rw [if_neg b1, if_neg b2, Prod.mk.injEq] at he
        omega
    have hcg : c / 20 < offs.length := by rw [hlen]; omega
    have hcg' : c' / 20 < offs.length := by rw [hlen]; omega
    have hdg : offs.getD (c / 20) 0 = offs.get ⟨c / 20, hcg⟩ := by
      rw [List.getD_eq_get?, List.get?_eq_get hcg]
      rfl
    have hdg' : offs.getD (c' / 20) 0 = offs.get ⟨c' / 20, hcg'⟩ := by
      rw [List.getD_eq_get?, List.get?_eq_get hcg']
      rfl
    have hfin : (⟨c / 20, hcg⟩ : Fin offs.length) = ⟨c' / 20, hcg'⟩ :=
      (hnd.get_inj_iff).mp (by rw [← hdg, ← hdg']; exact hdd.1)
    have hgroup : c / 20 = c' / 20 := congrArg Fin.val hfin
    omega
  have hg_inj : ∀ x ∈ List.range 80, ∀ y ∈ List.range 80, g x = g y → x = y := by
    intro x hx y hy he
    rw [List.mem_range] at hx hy
    refine hinj x y (g x) hx hy (hg x hx).2 ?_
    rw [he]
    exact (hg y hy).2
  have hf : ∀ i ∈ List.range 80,
      (match feistelPermute i 80 keys with
        | none => none
        | some none => some none
        | some (some c) =>
          match canonicalToPairCircular c 20 offs with
          | none => none
          | some p => some (some p)) = some (some (pf (g i))) := by
    intro i hi
    rw [List.mem_range] at hi
    rw [(hg i hi).2]
    show (match canonicalToPairCircular (g i) 20 offs with
      | none => none
      | some p => some (some p)) = some (some (pf (g i)))
    rw [(hpf (g i) (hg i hi).1).1]
  refine ⟨(List.range 80).map (fun i => pf (g i)),
    buildPairs_eq_map _ _ (List.range 80) hf, by simp, ?_, ?_, ?_, ?_⟩
  · intro p hp
    rw [List.mem_map] at hp
    obtain ⟨i, hi, he⟩ := hp
    rw [List.mem_range] at hi
    obtain ⟨hd1, hd9⟩ := hdmem (g i) (hg i hi).1
    rw [← he, (hpf (g i) (hg i hi).1).2]
    have hm20 : g i % 20 < 20 := by omega
    by_cases hxy : g i % 20 < (g i % 20 + offs.getD (g i / 20) 0) % 20
    · rw [if_pos hxy]
      dsimp only
      omega
    · rw [if_neg hxy]
      dsimp only
      omega
  · refine List.Nodup.map_on ?_ (List.nodup_range 80)
    intro x hx y hy he
    rw [List.mem_range] at hx hy
    exact hg_inj x (by rw [List.mem_range]; omega) y (by rw [List.mem_range]; omega)
      (pf_inj (g x) (g y) (hg x hx).1 (hg y hy).1 he ▸ rfl)
  · intro q hq
    rw [List.countP_map]
    rw [show ((fun p : Nat × Nat => p.1 == q || p.2 == q) ∘ (fun i => pf (g i))) =
        ((fun c => (pf c).1 == q || (pf c).2 == q) ∘ g) from rfl]
    rw [← List.countP_map]
    have hcs_nodup : (List.map g (List.range 80)).Nodup :=
      List.Nodup.map_on hg_inj (List.nodup_range 80)
    have hcs_perm : (List.map g (List.range 80)).Perm (List.range 80) := by
      apply List.perm_of_nodup_nodup_toFinset_eq hcs_nodup (List.nodup_range 80)
      apply Finset.eq_of_subset_of_card_le
      · intro x hx
        rw [List.mem_toFinset] at hx ⊢
        rw [List.mem_map] at hx
        obtain ⟨i, hi, he⟩ := hx
        rw [List.mem_range] at hi
        rw [List.mem_range, ← he]
        exact (hg i hi).1
      · rw [List.toFinset_card_of_nodup hcs_nodup,
          List.toFinset_card_of_nodup (List.nodup_range 80)]
        simp
    rw [hcs_perm.countP_eq]
    have block : ∀ gidx : Nat, gidx < 4 →
        (List.range 20).countP
          (fun i => (pf (20 * gidx + i)).1 == q || (pf (20 * gidx + i)).2 == q)
          = 2 := by
      intro gidx hg4
      have hidx : gidx < offs.length := by rw [hlen]; omega
      have hdg : offs.getD gidx 0 = offs.get ⟨gidx, hidx⟩ := by
        rw [List.getD_eq_get?, List.get?_eq_get hidx]
        rfl
      obtain ⟨hd1, hd9⟩ := hmem _ (hdg ▸ List.get_mem offs gidx hidx)
      have hc : (List.range 20).countP
          (fun i => (pf (20 * gidx + i)).1 == q || (pf (20 * gidx + i)).2 == q) =
          (List.range 20).countP
            (fun i => i == q || (i + offs.getD gidx 0) % 20 == q) :=
        List.countP_congr (by
          intro x hx
          rw [List.mem_range] at hx
          have hb : 20 * gidx + x < 80 := by omega
          have hdiv : (20 * gidx + x) / 20 = gidx := by omega
          have hmod : (20 * gidx + x) % 20 = x := by omega
          rw [(hpf (20 * gidx + x) hb).2, hdiv, hmod]
          by_cases hxy : x < (x + offs.getD gidx 0) % 20
          · rw [if_pos hxy]
          · rw [if_neg hxy]
            dsimp only
            rw [Bool.or_comm])
      rw [hc]
      exact count_block (offs.getD gidx 0) q hd1 hd9 hq
    rw [show (80 : Nat) = 60 + 20 from rfl, List.range_add, List.countP_append,
      show (60 : Nat) = 40 + 20 from rfl, List.range_add, List.countP_append,
      show (40 : Nat) = 20 + 20 from rfl, List.range_add, List.countP_append]
    have b0 : (List.range 20).countP
        (fun c => (pf c).1 == q || (pf c).2 == q) = 2 := by
      refine Eq.trans (List.countP_congr ?_) (block 0 (by omega))
      intro x hx
      rw [show 20 * 0 + x = x from by omega]
    have b1 : (List.map (fun x => 20 + x) (List.range 20)).countP
        (fun c => (pf c).1 == q || (pf c).2 == q) = 2 := by
      rw [List.countP_map]
      refine Eq.trans (List.countP_congr ?_) (block 1 (by omega))
      intro x hx
      exact Iff.rfl
    have b2 : (List.map (fun x => 40 + x) (List.range 20)).countP
        (fun c => (pf c).1 == q || (pf c).2 == q) = 2 := by
      rw [List.countP_map]
      refine Eq.trans (List.countP_congr ?_) (block 2 (by omega))
      intro x hx
      exact Iff.rfl
    have b3 : (List.map (fun x => 60 + x) (List.range 20)).countP
        (fun c => (pf c).1 == q || (pf c).2 == q) = 2 := by
      rw [List.countP_map]
      refine Eq.trans (List.countP_congr ?_) (block 3 (by omega))
      intro x hx
      exact Iff.rfl
    rw [b0, b1, b2, b3]
  · intro i hi
    refine ⟨g i, pf (g i), (hg i hi).2, (hpf (g i) (hg i hi).1).1, ?_⟩
    rw [List.get?_map, List.get?_range hi]
    rfl

/-- C6 (amended): in the circular regime the generator selects exactly
`min(⌈K/2⌉, available, 50)` distinct offsets (the claim omits the 50
cap), all in `[1, N/2]`; and for N=20, K=8 the full enumeration of
`generate_all_pairings` has 80 pairs with no self-pair, no duplicate
pair, and every player in exactly 8 pairs. -/
theorem C6_amended (seed : List Nat) :
    (∀ n k, k + 1 < n →
      (selectOffsets n k seed).length =
        min (min (divCeil k 2) (if n % 2 = 0 then n / 2 - 1 else n / 2)) 50 ∧
      (selectOffsets n k seed).Nodup ∧
      ∀ x ∈ selectOffsets n k seed, 1 ≤ x ∧ x ≤ n / 2) ∧
    (∃ ps, generateAllPairings 20 8 seed = some ps ∧
      ps.length = 80 ∧ (∀ p ∈ ps, p.1 ≠ p.2) ∧ ps.Nodup ∧
      ∀ q, q < 20 → ps.countP (fun p => p.1 == q || p.2 == q) = 8) := by
  constructor
  · intro n k _
    obtain ⟨h1, h2, h3⟩ := selectOffsets_spec n k seed
    refine ⟨h1, h2, ?_⟩
    intro x hx
    have hb := h3 x hx
    constructor
    · exact hb.1
    · have := hb.2
      split at this <;> omega
  · obtain ⟨h1, h2, h3⟩ := selectOffsets_spec 20 8 seed
    have hlen4 : (selectOffsets 20 8 seed).length = 4 := by
      rw [h1]
      decide
    have hmem9 : ∀ x ∈ selectOffsets 20 8 seed, 1 ≤ x ∧ x ≤ 9 := by
      intro x hx
      have := h3 x hx
      rw [show (if (20 : Nat) % 2 = 0 then 20 / 2 - 1 else 20 / 2) = 9
        from rfl] at this
      exact this
    obtain ⟨ps, hps, hl, hself, hnd, hcnt, _⟩ :=
      circular_pairs_20_8 (deriveFeistelKeys seed) (selectOffsets 20 8 seed)
        hlen4 h2 hmem9
    refine ⟨ps, ?_, hl, hself, hnd, hcnt⟩
    rw [show generateAllPairings 20 8 seed = buildPairs (fun i =>
        match feistelPermute i 80 (deriveFeistelKeys seed) with
        | none => none
        | some none => some none
        | some (some c) =>
          match canonicalToPairCircular c 20 (selectOffsets 20 8 seed) with
          | none => none
          | some p => some (some p)) (List.range 80) from rfl]
    exact hps

/-! ## Colexicographic unranking (C7) -/

/-- The wrapped comparison of the incrementing loop never fails at rank
2³¹, so the loop exhausts any fuel. -/
theorem unrankUp_none : ∀ fuel b, unrankUp 2147483648 fuel b = none := by
  intro fuel
  induction fuel with
  | zero =>
    intro b
    rfl
  | succ n ih =>
    intro b
    rw [show unrankUp 2147483648 (n + 1) b =
        (if ((b + 1) * b) % u32Mod / 2 ≤ 2147483648
          then unrankUp 2147483648 n (b + 1) else some b) from rfl]
    rw [if_pos (by simp only [u32Mod]; omega)]
    exact ih (b + 1)

/-- If the incrementing loop diverges at a rank, `unrank_pair` returns
nothing at that rank. -/
theorem unrankPair_up_none (r : Nat)
    (h : ∀ fuel b, unrankUp r fuel b = none) : unrankPair r = none := by
  show (match newtonGo64 (1 + 8 * r) (1 + 8 * r + 1) (1 + 8 * r)
      ((1 + 8 * r + 1) / 2) with
    | none => none
    | some s =>
      match unrankUp r 1099511627776 (unrankDown r (((1 + s) / 2) % u32Mod)) with
      | none => none
      | some b =>
        some ((r + u32Mod - b * (b - 1) % u32Mod / 2) % u32Mod, b)) = none
  rcases hN : newtonGo64 (1 + 8 * r) (1 + 8 * r + 1) (1 + 8 * r)
      ((1 + 8 * r + 1) / 2) with _ | s
  · rfl
  · show (match unrankUp r 1099511627776
        (unrankDown r (((1 + s) / 2) % u32Mod)) with
      | none => none
      | some b =>
        some ((r + u32Mod - b * (b - 1) % u32Mod / 2) % u32Mod, b)) = none
    rw [h]

/-- C7 counterexample: at rank 2³¹ the wrapped triangular-number
comparison of `unrank_pair` is always true, the incrementing loop never
terminates, and no pair is returned (the claim asserts a pair for every
rank). -/
theorem C7_counterexample : unrankPair 2147483648 = none :=
  unrankPair_up_none 2147483648 unrankUp_none

/-- One Newton step from above the square root stays at or above it
(integer AM–GM). -/
theorem newton_y_ge_sqrt (n x : Nat) (hx : 0 < x) :
    Nat.sqrt n ≤ (x + n / x) / 2 := by
  rw [Nat.le_div_iff_mul_le (by omega : 0 < 2)]
  have h1 : Nat.sqrt n * Nat.sqrt n / x ≤ n / x :=
    Nat.div_le_div_right (Nat.sqrt_le n)
  by_cases hxs : 2 * Nat.sqrt n ≤ x
  · calc Nat.sqrt n * 2 = 2 * Nat.sqrt n := by ring
      _ ≤ x := hxs
      _ ≤ x + n / x := Nat.le_add_right x (n / x)
  · have h2 : 2 * Nat.sqrt n * x ≤ Nat.sqrt n * Nat.sqrt n + x * x := by
      have := two_mul_le_add_sq (Nat.sqrt n) x
      rw [pow_two, pow_two] at this
      exact this
    have hkey : (2 * Nat.sqrt n - x) * x ≤ Nat.sqrt n * Nat.sqrt n := by
      rw [Nat.sub_mul]
      omega
    have h3 : 2 * Nat.sqrt n - x ≤ Nat.sqrt n * Nat.sqrt n / x := by
      rw [Nat.le_div_iff_mul_le hx]
      exact hkey
    have h4 : 2 * Nat.sqrt n - x ≤ n / x := le_trans h3 h1
    generalize hw : n / x = w at h4 ⊢
    omega

/-- One Newton step strictly decreases any iterate above the square
root. -/
theorem newton_decrease (n x : Nat) (hx : Nat.sqrt n < x) :
    (x + n / x) / 2 < x := by
  have hx0 : 0 < x := by omega
  have hn : n / x < x := by
    rw [Nat.div_lt_iff_lt_mul hx0]
    calc n < (Nat.sqrt n + 1) * (Nat.sqrt n + 1) := Nat.lt_succ_sqrt n
      _ ≤ x * x := Nat.mul_le_mul (by omega) (by omega)
  omega

/-- The 64-bit Newton loop of `unrank_pair` computes the floor square
root. -/
theorem newtonGo64_isqrt (val : Nat) (hval : 1 ≤ val) :
    ∀ fuel x, Nat.sqrt val ≤ x → x < fuel →
      newtonGo64 val fuel x ((x + val / x) / 2) = some (Nat.sqrt val) := by
  intro fuel
  induction fuel with
  | zero =>
    intro x _ h
    exact absurd h (by omega)
  | succ k ih =>
    intro x hsx hxf
    rw [show newtonGo64 val (k + 1) x ((x + val / x) / 2) =
        (if (x + val / x) / 2 < x
          then newtonGo64 val k ((x + val / x) / 2)
            (((x + val / x) / 2 + val / ((x + val / x) / 2)) / 2)
          else some x) from rfl]
    by_cases hy : (x + val / x) / 2 < x
    · rw [if_pos hy]
      exact ih ((x + val / x) / 2) (newton_y_ge_sqrt val x (by
        have : 1 ≤ Nat.sqrt val := Nat.sqrt_pos.mpr hval
        omega)) (by omega)
    · rw [if_neg hy]
      have hle : x ≤ Nat.sqrt val := by
        by_contra hgt
        push_neg at hgt
        exact hy (newton_decrease val x hgt)
      rw [le_antisymm hle hsx]

/-- Triangular numbers are monotone. -/
theorem tri_mono {a b : Nat} (h : a ≤ b) :
    a * (a - 1) / 2 ≤ b * (b - 1) / 2 :=
  Nat.div_le_div_right (Nat.mul_le_mul h (by omega))

/-- The triangular-number step identity `T(b+1) = T(b) + b`. -/
theorem tri_succ (b : Nat) : (b + 1) * b / 2 = b * (b - 1) / 2 + b := by
  cases b with
  | zero => rfl
  | succ m =>
    have h1 : (m + 1 + 1) * (m + 1) = (m + 1) * m + 2 * (m + 1) := by ring
    obtain ⟨k, hk⟩ := Nat.even_mul_succ_self m
    have h2 : (m + 1) * m = k + k := by
      rw [Nat.mul_comm]
      exact hk
    show (m + 1 + 1) * (m + 1) / 2 = (m + 1) * m / 2 + (m + 1)
    omega

/-- The decrementing correction loop preserves `T(b) ≤ rank` and never
increases `b`. -/
theorem unrankDown_spec (r : Nat) : ∀ b, b ≤ 65536 →
    unrankDown r b ≤ b ∧ (unrankDown r b) * (unrankDown r b - 1) / 2 ≤ r := by
  intro b
  induction b with
  | zero =>
    intro _
    exact ⟨le_refl 0, by simp [unrankDown]⟩
  | succ m ih =>
    intro hb
    rw [show unrankDown r (m + 1) =
        (if ((m + 1) * m) % u32Mod / 2 > r then unrankDown r m else m + 1)
        from rfl]
    by_cases hc : ((m + 1) * m) % u32Mod / 2 > r
    · rw [if_pos hc]
      obtain ⟨h1, h2⟩ := ih (by omega)
      exact ⟨by omega, h2⟩
    · rw [if_neg hc]
      refine ⟨le_refl _, ?_⟩
      have hnw : ((m + 1) * m) % u32Mod = (m + 1) * m := by
        apply Nat.mod_eq_of_lt
        calc (m + 1) * m ≤ 65536 * 65535 := Nat.mul_le_mul (by omega) (by omega)
          _ < u32Mod := by norm_num [u32Mod]
      rw [show (m + 1) * (m + 1 - 1) = (m + 1) * m from rfl]
      omega

/-- The incrementing correction loop finds the largest `b` with
`T(b) ≤ rank`, for ranks below `T(65536) = C(65536, 2)` (where no `u32`
product wraps). -/
theorem unrankUp_spec (r : Nat) (hr : r < 2147450880) :
    ∀ fuel b, b * (b - 1) / 2 ≤ r → 65536 - b < fuel →
      ∃ v, unrankUp r fuel b = some v ∧ b ≤ v ∧
        v * (v - 1) / 2 ≤ r ∧ r < (v + 1) * v / 2 := by
  intro fuel
  induction fuel with
  | zero =>
    intro b _ h
    exact absurd h (by omega)
  | succ k ih =>
    intro b hTb hfuel
    have hble : b ≤ 65535 := by
      by_contra hgt
      push_neg at hgt
      have hmt : 65536 * (65536 - 1) / 2 ≤ b * (b - 1) / 2 := tri_mono (by omega)
      rw [show (65536 : Nat) * (65536 - 1) / 2 = 2147450880 from rfl] at hmt
      omega
    have hnw : ((b + 1) * b) % u32Mod = (b + 1) * b := by
      apply Nat.mod_eq_of_lt
      calc (b + 1) * b ≤ 65536 * 65535 := Nat.mul_le_mul (by omega) (by omega)
        _ < u32Mod := by norm_num [u32Mod]
    rw [show unrankUp r (k + 1) b =
        (if ((b + 1) * b) % u32Mod / 2 ≤ r then unrankUp r k (b + 1) else some b)
        from rfl]
    by_cases hc : ((b + 1) * b) % u32Mod / 2 ≤ r
    · rw [if_pos hc]
      have hTb1 : (b + 1) * (b + 1 - 1) / 2 ≤ r := by
        rw [hnw] at hc
        rw [show (b + 1) * (b + 1 - 1) = (b + 1) * b from by
          simp only [Nat.add_sub_cancel]]
        exact hc
      obtain ⟨v, hv1, hv2, hv3, hv4⟩ := ih (b + 1) hTb1 (by omega)
      exact ⟨v, hv1, by omega, hv3, hv4⟩
    · rw [if_neg hc]
      rw [hnw] at hc
      exact ⟨b, rfl, le_refl b, hTb, by omega⟩

/-- `unrank_pair` below `C(65536, 2)`: the returned `b` is the largest
with `T(b) ≤ rank`, and `a = rank - T(b)`. -/
theorem unrankPair_correct (r : Nat) (hr : r < 2147450880) :
    ∃ b, unrankPair r = some (r - b * (b - 1) / 2, b) ∧
      b * (b - 1) / 2 ≤ r ∧ r < (b + 1) * b / 2 := by
  have hv1 : 1 ≤ 1 + 8 * r := by omega
  have hnewt : newtonGo64 (1 + 8 * r) (1 + 8 * r + 1) (1 + 8 * r)
      ((1 + 8 * r + 1) / 2) = some (Nat.sqrt (1 + 8 * r)) := by
    have hdd : (1 + 8 * r + 1) / 2 = (1 + 8 * r + (1 + 8 * r) / (1 + 8 * r)) / 2 := by
      rw [Nat.div_self (by omega)]
    rw [hdd]
    exact newtonGo64_isqrt (1 + 8 * r) hv1 (1 + 8 * r + 1) (1 + 8 * r)
      (Nat.sqrt_le_self (1 + 8 * r)) (by omega)
  have hsb : Nat.sqrt (1 + 8 * r) ≤ 131070 := by
    by_contra hgt
    push_neg at hgt
    have h1 : 131071 * 131071 ≤ Nat.sqrt (1 + 8 * r) * Nat.sqrt (1 + 8 * r) :=
      Nat.mul_le_mul (by omega) (by omega)
    have h2 : Nat.sqrt (1 + 8 * r) * Nat.sqrt (1 + 8 * r) ≤ 1 + 8 * r :=
      Nat.sqrt_le (1 + 8 * r)
    omega
  have hstep : unrankPair r =
      match newtonGo64 (1 + 8 * r) (1 + 8 * r + 1) (1 + 8 * r)
          ((1 + 8 * r + 1) / 2) with
      | none => none
      | some s =>
        match unrankUp r 1099511627776 (unrankDown r (((1 + s) / 2) % u32Mod)) with
        | none => none
        | some b => some ((r + u32Mod - b * (b - 1) % u32Mod / 2) % u32Mod, b) :=
    rfl
  rw [hstep, hnewt]
  have hred : (match some (Nat.sqrt (1 + 8 * r)) with
      | none => none
      | some s =>
        match unrankUp r 1099511627776
            (unrankDown r (((1 + s) / 2) % u32Mod)) with
        | none => none
        | some b =>
          some ((r + u32Mod - b * (b - 1) % u32Mod / 2) % u32Mod, b)) =
      (match unrankUp r 1099511627776
          (unrankDown r (((1 + Nat.sqrt (1 + 8 * r)) / 2) % u32Mod)) with
        | none => none
        | some b =>
          some ((r + u32Mod - b * (b - 1) % u32Mod / 2) % u32Mod, b)) := rfl
  rw [hred]
  have hb0 : ((1 + Nat.sqrt (1 + 8 * r)) / 2) % u32Mod =
      (1 + Nat.sqrt (1 + 8 * r)) / 2 :=
    Nat.mod_eq_of_lt (by simp only [u32Mod]; omega)
  rw [hb0]
  obtain ⟨hd1, hd2⟩ := unrankDown_spec r ((1 + Nat.sqrt (1 + 8 * r)) / 2)
    (by omega)
  obtain ⟨v, hv1', hbv, hT1, hT2⟩ := unrankUp_spec r hr 1099511627776
    (unrankDown r ((1 + Nat.sqrt (1 + 8 * r)) / 2)) hd2 (by omega)
  rw [hv1']
  have hvle : v ≤ 65535 := by
    by_contra hgt
    push_neg at hgt
    have hmt : 65536 * (65536 - 1) / 2 ≤ v * (v - 1) / 2 := tri_mono (by omega)
    rw [show (65536 : Nat) * (65536 - 1) / 2 = 2147450880 from rfl] at hmt
    omega
  have hnw2 : v * (v - 1) % u32Mod = v * (v - 1) := by
    apply Nat.mod_eq_of_lt
    calc v * (v - 1) ≤ 65536 * 65535 := Nat.mul_le_mul (by omega) (by omega)
      _ < u32Mod := by norm_num [u32Mod]
  refine ⟨v, ?_, hT1, hT2⟩
  show some ((r + u32Mod - v * (v - 1) % u32Mod / 2) % u32Mod, v) =
    some (r - v * (v - 1) / 2, v)
  rw [hnw2]
  congr 2
  rw [show r + u32Mod - v * (v - 1) / 2 = (r - v * (v - 1) / 2) + 1 * u32Mod
    from by omega]
  rw [Nat.add_mul_mod_self_right]
  apply Nat.mod_eq_of_lt
  simp only [u32Mod]
  omega

/-- The largest `b` with `T(b) ≤ r` is unique. -/
theorem tri_unique {r b b' : Nat} (h1 : b * (b - 1) / 2 ≤ r)
    (h2 : r < (b + 1) * b / 2) (h3 : b' * (b' - 1) / 2 ≤ r)
    (h4 : r < (b' + 1) * b' / 2) : b = b' := by
  by_contra hne
  rcases Nat.lt_or_ge b b' with hlt | hge
  · have hm : (b + 1) * (b + 1 - 1) / 2 ≤ b' * (b' - 1) / 2 := tri_mono (by omega)
    rw [show (b + 1) * (b + 1 - 1) = (b + 1) * b from rfl] at hm
    omega
  · have hlt' : b' < b := by omega
    have hm : (b' + 1) * (b' + 1 - 1) / 2 ≤ b * (b - 1) / 2 := tri_mono (by omega)
    rw [show (b' + 1) * (b' + 1 - 1) = (b' + 1) * b' from rfl] at hm
    omega

/-- C7 (amended): colexicographic unranking is correct and bijective for
ranks below `C(65536, 2) = 2147450880` — not for every rank, as the
claim states (see the counterexample at rank 2³¹): `unrank_pair r`
returns `(r - T(b), b)` with `b` the largest integer with
`T(b) = b(b-1)/2 ≤ r`, so `a < b`; and for `2 ≤ N ≤ 65536` the map is a
bijection from `[0, C(N,2))` onto the pairs `a < b < N`. -/
theorem C7_amended :
    (∀ r, r < 2147450880 →
      ∃ a b, unrankPair r = some (a, b) ∧
        b * (b - 1) / 2 ≤ r ∧ r < (b + 1) * b / 2 ∧
        a = r - b * (b - 1) / 2 ∧ a < b) ∧
    (∀ N, 2 ≤ N → N ≤ 65536 →
      (∀ r, r < N * (N - 1) / 2 →
        ∃ a b, unrankPair r = some (a, b) ∧ a < b ∧ b < N) ∧
      (∀ r r', r < N * (N - 1) / 2 → r' < N * (N - 1) / 2 →
        unrankPair r = unrankPair r' → r = r') ∧
      (∀ a b, a < b → b < N →
        ∃ r, r < N * (N - 1) / 2 ∧ unrankPair r = some (a, b))) := by
  have key : ∀ r, r < 2147450880 →
      ∃ a b, unrankPair r = some (a, b) ∧
        b * (b - 1) / 2 ≤ r ∧ r < (b + 1) * b / 2 ∧
        a = r - b * (b - 1) / 2 ∧ a < b := by
    intro r hr
    obtain ⟨b, he, hT1, hT2⟩ := unrankPair_correct r hr
    refine ⟨r - b * (b - 1) / 2, b, he, hT1, hT2, rfl, ?_⟩
    have := tri_succ b
    omega
  have hTN : ∀ N, N ≤ 65536 → N * (N - 1) / 2 ≤ 2147450880 := by
    intro N hN
    have := tri_mono hN
    rw [show (65536 : Nat) * (65536 - 1) / 2 = 2147450880 from rfl] at this
    exact this
  refine ⟨key, ?_⟩
  intro N hN2 hN
  refine ⟨?_, ?_, ?_⟩
  · intro r hr
    have hr' : r < 2147450880 := by
      have := hTN N hN
      omega
    obtain ⟨a, b, he, hT1, hT2, ha, hab⟩ := key r hr'
    refine ⟨a, b, he, hab, ?_⟩
    by_contra hbN
    push_neg at hbN
    have := tri_mono hbN
    omega
  · intro r r' hr hr' heq
    have h1 : r < 2147450880 := by
      have := hTN N hN
      omega
    have h2 : r' < 2147450880 := by
      have := hTN N hN
      omega
    obtain ⟨a, b, he, hT1, hT2, ha, hab⟩ := key r h1
    obtain ⟨a', b', he', hT1', hT2', ha', hab'⟩ := key r' h2
    rw [he, he'] at heq
    obtain ⟨hpa, hpb⟩ : a = a' ∧ b = b' := by
      have hinj := Option.some.inj heq
      rw [Prod.mk.injEq] at hinj
      exact hinj
    rw [← hpb] at hT1' ha'
    rw [← hpa] at ha'
    omega
  · intro a b hab hbN
    have hTb : b * (b - 1) / 2 + b ≤ N * (N - 1) / 2 := by
      have hm := tri_mono (show b + 1 ≤ N from by omega)
      rw [show (b + 1) * (b + 1 - 1) = (b + 1) * b from rfl] at hm
      have := tri_succ b
      omega
    refine ⟨b * (b - 1) / 2 + a, by omega, ?_⟩
    have hr' : b * (b - 1) / 2 + a < 2147450880 := by
      have := hTN N hN
      omega
    obtain ⟨a', b', he', hT1', hT2', ha', hab'⟩ := key (b * (b - 1) / 2 + a) hr'
    have hbb : b' = b := by
      refine tri_unique hT1' hT2' (by omega) ?_
      have := tri_succ b
      omega
    have haa : a' = a := by
      rw [ha', hbb]
      omega
    rw [he', haa, hbb]

/-! ## Enumeration versus per-index lookup (C9) -/

/-- C9 counterexample: for 104 players and 101 matches per player the
match count is 5304 (51 uncapped offsets × 104), but `select_offsets`
caps its list at 50 offsets, so the pairing closure indexes
`offsets[50]` out of bounds and `generate_all_pairings` panics (`none`)
instead of producing a 5304-element enumeration. -/
theorem C9_counterexample :
    generateAllPairings 104 101 [0] = none ∧
    calculateMatchCount 104 101 [0] = 5304 ∧
    getPairingForMatch 104 101 [0] 26 = none := by
  refine ⟨rfl, rfl, rfl⟩

/-- C9 (amended): an index at or past the match count always yields
`None`; and for the standard tournament shape N=20, K=8 (every seed) the
enumeration has exactly `calculate_match_count` elements and its `i`-th
element agrees with `get_pairing_for_match` at every valid index. -/
theorem C9_amended :
    (∀ n k seed i, calculateMatchCount n k seed ≤ i →
      getPairingForMatch n k seed i = some none) ∧
    (∀ seed : List Nat,
      ∃ ps, generateAllPairings 20 8 seed = some ps ∧
        ps.length = calculateMatchCount 20 8 seed ∧
        ∀ i, i < ps.length →
          getPairingForMatch 20 8 seed i = some (ps.get? i)) := by
  constructor
  · intro n k seed i h
    simp only [getPairingForMatch]
    rw [if_pos (show i ≥ calculateMatchCountInner n k from h)]
  · intro seed
    obtain ⟨h1, h2, h3⟩ := selectOffsets_spec 20 8 seed
    have hlen4 : (selectOffsets 20 8 seed).length = 4 := by
      rw [h1]
      decide
    have hmem9 : ∀ x ∈ selectOffsets 20 8 seed, 1 ≤ x ∧ x ≤ 9 := by
      intro x hx
      have := h3 x hx
      rw [show (if (20 : Nat) % 2 = 0 then 20 / 2 - 1 else 20 / 2) = 9
        from rfl] at this
      exact this
    obtain ⟨ps, hps, hl, _, _, _, halign⟩ :=
      circular_pairs_20_8 (deriveFeistelKeys seed) (selectOffsets 20 8 seed)
        hlen4 h2 hmem9
    refine ⟨ps, ?_, ?_, ?_⟩
    · rw [show generateAllPairings 20 8 seed = buildPairs (fun i =>
          match feistelPermute i 80 (deriveFeistelKeys seed) with
          | none => none
          | some none => some none
          | some (some c) =>
            match canonicalToPairCircular c 20 (selectOffsets 20 8 seed) with
            | none => none
            | some p => some (some p)) (List.range 80) from rfl]
      exact hps
    · rw [hl]
      rfl
    · intro i hi
      rw [hl] at hi
      obtain ⟨c, p, hfp, hcp, hget⟩ := halign i hi
      rw [hget]
      have hstep : getPairingForMatch 20 8 seed i =
          (if i ≥ 80 then some none
           else match feistelPermute i 80 (deriveFeistelKeys seed) with
            | none => none
            | some none => some none
            | some (some canonical) =>
              match canonicalToPairCircular canonical 20
                  (selectOffsets 20 8 seed) with
              | none => none
              | some p => some (some p)) := rfl
      rw [hstep, if_neg (by omega), hfp]
      show (match canonicalToPairCircular c 20 (selectOffsets 20 8 seed) with
        | none => none
        | some p' => some (some p')) = some (some p)
      rw [hcp]

/-! ## Panic freedom (C1) -/

/-- C1 counterexample: `execute_strategy` for Pavlov with a non-empty own
history and an empty opponent history hits the `.unwrap()` on
`opponent_history.last()` and panics (modelled `none`). -/
theorem C1_counterexample :
    executeStrategy (Strategy.new StrategyBase.Pavlov) [] [Move.Cooperate] 1 ⟨0⟩ =
      none := rfl

/-- `execute_strategy` returns a move whenever the opponent history is
non-empty or the own history is empty (the only panic is Pavlov's
`.unwrap()` on an empty opponent history with a non-empty own one). -/
theorem executeStrategy_total (s : Strategy) (opp my : List Move) (round : Nat)
    (rng : SeededRng) (h : opp = [] → my = []) :
    ∃ m rng2, executeStrategy s opp my round rng = some (m, rng2) := by
  unfold executeStrategy
  by_cases hov : round < 8 ∧ (s.params.initialMoves >>> round) &&& 1 = 1
  · rw [if_pos hov]
    exact ⟨Move.Defect, rng, rfl⟩
  · rw [if_neg hov]
    cases hsb : s.base
    · exact ⟨_, _, rfl⟩
    · exact ⟨_, _, rfl⟩
    · exact ⟨_, _, rfl⟩
    · exact ⟨_, _, rfl⟩
    · rcases hml : my.getLast? with _ | mL
      · refine ⟨Move.Cooperate, rng, ?_⟩
        show (executePavlov opp my).map (fun mv => (mv, rng)) =
          some (Move.Cooperate, rng)
        rw [show executePavlov opp my = some Move.Cooperate from by
          simp [executePavlov, hml]]
        rfl
      · have hopp : opp ≠ [] := fun hnil => by
          rw [h hnil] at hml
          simp at hml
        rcases hol : opp.getLast? with _ | oL
        · rw [List.getLast?_eq_none_iff] at hol
          exact absurd hol hopp
        · have hpv : ∃ mv, executePavlov opp my = some mv := by
            simp only [executePavlov]
            rw [hml]
            show ∃ mv, (match opp.getLast? with
              | none => none
              | some oppLast =>
                if (payoff mL oppLast).1 ≥ 3 then some mL
                else some ((fun m0 : Move => match m0 with
                  | Move.Cooperate => Move.Defect
                  | Move.Defect => Move.Cooperate) mL)) = some mv
            rw [hol]
            show ∃ mv, (if (payoff mL oL).1 ≥ 3 then some mL
              else some ((fun m0 : Move => match m0 with
                | Move.Cooperate => Move.Defect
                | Move.Defect => Move.Cooperate) mL)) = some mv
            by_cases hs : (payoff mL oL).1 ≥ 3
            · exact ⟨mL, by rw [if_pos hs]⟩
            · exact ⟨_, by rw [if_neg hs]⟩
          obtain ⟨mv, hmv⟩ := hpv
          refine ⟨mv, rng, ?_⟩
          show (executePavlov opp my).map (fun m2 => (m2, rng)) = some (mv, rng)
          rw [hmv]
          rfl
    · exact ⟨_, _, rfl⟩
    · exact ⟨_, _, rfl⟩
    · exact ⟨_, _, rfl⟩
    · exact ⟨_, _, rfl⟩

/-- The per-round loop of `run_match` never panics: both histories have
the round length, so Pavlov's panic is unreachable in a match. -/
theorem matchLoop_some (a b : PlayerStrategy) (rngMain : SeededRng) :
    ∀ (rem round : Nat) (hA hB : List Move) (acc : List RoundResult) (tA tB : Nat),
      hA.length = round → hB.length = round →
      ∃ res, matchLoop a b rngMain rem round hA hB acc tA tB = some res := by
  intro rem
  induction rem with
  | zero =>
    intro round hA hB acc tA tB _ _
    exact ⟨(acc, tA, tB), rfl⟩
  | succ r ih =>
    intro round hA hB acc tA tB h1 h2
    have hea : ∃ p, executePlayerStrategy a hB hA round
        (rngMain.forRound (round * 2)) = some p := by
      cases a with
      | Builtin s =>
        obtain ⟨m, rng2, hm⟩ := executeStrategy_total s hB hA round
          (rngMain.forRound (round * 2)) (fun hnil => by
            have hr0 : round = 0 := by
              rw [hnil] at h2
              simpa using h2.symm
            exact List.eq_nil_of_length_eq_zero (h1.trans hr0))
        exact ⟨(m, rng2), hm⟩
      | Custom code => exact ⟨_, rfl⟩
    have heb : ∃ p, executePlayerStrategy b hA hB round
        (rngMain.forRound (round * 2 + 1)) = some p := by
      cases b with
      | Builtin s =>
        obtain ⟨m, rng2, hm⟩ := executeStrategy_total s hA hB round
          (rngMain.forRound (round * 2 + 1)) (fun hnil => by
            have hr0 : round = 0 := by
              rw [hnil] at h1
              simpa using h1.symm
            exact List.eq_nil_of_length_eq_zero (h2.trans hr0))
        exact ⟨(m, rng2), hm⟩
      | Custom code => exact ⟨_, rfl⟩
    obtain ⟨⟨mA, rA⟩, hma⟩ := hea
    obtain ⟨⟨mB, rB⟩, hmb⟩ := heb
    rw [matchLoop_succ, hma, hmb]
    show ∃ res, matchLoop a b rngMain r (round + 1) (hA ++ [mA]) (hB ++ [mB])
      (acc ++ [⟨round, mA, mB, (payoff mA mB).1, (payoff mA mB).2,
        tA + (payoff mA mB).1, tB + (payoff mA mB).2⟩])
      (tA + (payoff mA mB).1) (tB + (payoff mA mB).2) = some res
    exact ih (round + 1) (hA ++ [mA]) (hB ++ [mB]) _ _ _
      (by simp [h1]) (by simp [h2])

/-- `run_match` always returns a result. -/
theorem runMatch_total (a b : PlayerStrategy) (seed : List Nat)
    (matchIndex participantCount : Nat) :
    ∃ res, runMatch a b seed matchIndex participantCount = some res := by
  obtain ⟨r0, hr0⟩ := matchLoop_some a b
    (determineRoundCount (SeededRng.new seed matchIndex)
      (if participantCount ≤ 1000 then RoundConfig.standard
       else RoundConfig.compressed)).2
    (determineRoundCount (SeededRng.new seed matchIndex)
      (if participantCount ≤ 1000 then RoundConfig.standard
       else RoundConfig.compressed)).1
    0 [] [] [] 0 0 rfl rfl
  show ∃ res, (matchLoop a b
      (determineRoundCount (SeededRng.new seed matchIndex)
        (if participantCount ≤ 1000 then RoundConfig.standard
         else RoundConfig.compressed)).2
      (determineRoundCount (SeededRng.new seed matchIndex)
        (if participantCount ≤ 1000 then RoundConfig.standard
         else RoundConfig.compressed)).1
      0 [] [] [] 0 0).map (fun r =>
        (⟨r.1, r.2.1, r.2.2,
          (determineRoundCount (SeededRng.new seed matchIndex)
            (if participantCount ≤ 1000 then RoundConfig.standard
             else RoundConfig.compressed)).1⟩ : MatchResult)) = some res
  rw [hr0]
  exact ⟨_, rfl⟩

/-- The per-index lookup of the standard 20-player, 8-match shape,
written without its `let` bindings. -/
theorem getPairing_20_8_step (seed : List Nat) (i : Nat) :
    getPairingForMatch 20 8 seed i =
      (if i ≥ 80 then some none
       else match feistelPermute i 80 (deriveFeistelKeys seed) with
        | none => none
        | some none => some none
        | some (some canonical) =>
          match canonicalToPairCircular canonical 20
              (selectOffsets 20 8 seed) with
          | none => none
          | some p => some (some p)) := rfl

/-- C1 (amended): the panic-free core — `execute_strategy` on compatible
histories, `run_match` on all inputs, `validate_bytecode` on all inputs,
and the pairing lookups at the standard 20-player, 8-match shape —
always returns a value. -/
theorem C1_amended :
    (∀ (s : Strategy) (opp my : List Move) (round : Nat) (rng : SeededRng),
      (opp = [] → my = []) →
      ∃ m rng2, executeStrategy s opp my round rng = some (m, rng2)) ∧
    (∀ (a b : PlayerStrategy) (seed : List Nat) (matchIndex participantCount : Nat),
      ∃ res, runMatch a b seed matchIndex participantCount = some res) ∧
    (∀ code : List Nat, validateBytecode code = Except.ok () ∨
      ∃ e, validateBytecode code = Except.error e) ∧
    (∀ (seed : List Nat) (i : Nat), ∃ v, getPairingForMatch 20 8 seed i = some v) ∧
    (∀ seed : List Nat, ∃ ps, generateAllPairings 20 8 seed = some ps) := by
  have hoff : ∀ seed : List Nat, (selectOffsets 20 8 seed).length = 4 ∧
      (selectOffsets 20 8 seed).Nodup ∧
      ∀ x ∈ selectOffsets 20 8 seed, 1 ≤ x ∧ x ≤ 9 := by
    intro seed
    obtain ⟨h1, h2, h3⟩ := selectOffsets_spec 20 8 seed
    refine ⟨by rw [h1]; decide, h2, ?_⟩
    intro x hx
    have := h3 x hx
    rw [show (if (20 : Nat) % 2 = 0 then 20 / 2 - 1 else 20 / 2) = 9
      from rfl] at this
    exact this
  refine ⟨executeStrategy_total, runMatch_total, ?_, ?_, ?_⟩
  · intro code
    cases hv : validateBytecode code with
    | ok u =>
      cases u
      exact Or.inl rfl
    | error e => exact Or.inr ⟨e, rfl⟩
  · intro seed i
    obtain ⟨hl4, hnd, hm9⟩ := hoff seed
    by_cases hi : i < 80
    · obtain ⟨ps, hps, hl, _, _, _, halign⟩ :=
        circular_pairs_20_8 (deriveFeistelKeys seed) (selectOffsets 20 8 seed)
          hl4 hnd hm9
      obtain ⟨c, p, hfp, hcp, _⟩ := halign i hi
      refine ⟨some p, ?_⟩
      rw [getPairing_20_8_step, if_neg (by omega), hfp]
      show (match canonicalToPairCircular c 20 (selectOffsets 20 8 seed) with
        | none => none
        | some p' => some (some p')) = some (some p)
      rw [hcp]
    · refine ⟨none, ?_⟩
      rw [getPairing_20_8_step, if_pos (by omega)]
  · intro seed
    obtain ⟨hl4, hnd, hm9⟩ := hoff seed
    obtain ⟨ps, hps, _, _, _, _, _⟩ :=
      circular_pairs_20_8 (deriveFeistelKeys seed) (selectOffsets 20 8 seed)
        hl4 hnd hm9
    refine ⟨ps, ?_⟩
    rw [show generateAllPairings 20 8 seed = buildPairs (fun i =>
        match feistelPermute i 80 (deriveFeistelKeys seed) with
        | none => none
        | some none => some none
        | some (some c) =>
          match canonicalToPairCircular c 20 (selectOffsets 20 8 seed) with
          | none => none
          | some p => some (some p)) (List.range 80) from rfl]
    exact hps

end PrisonersArena
